import Mathlib

/-!
Verification development for `shadb`, an embedded document database whose
durable state is a git working tree of JSON files and whose query surface is
a set of secondary indices materialized in SQLite (`src/shadb.py`).

The Python source is shallowly embedded here:
  * the per-index SQL table is a list of `(fn, key)` rows;
  * the git trees (last-indexed commit, HEAD) and the working tree are
    partial maps `String → Option Doc`;
  * `Index.update` becomes a fold over parsed `git diff --name-status`
    lines plus the `also_fns` hints;
  * the commit scope (`Commit`), `SHADB.delete` and `Commit._commit` /
    `Commit._abort` become state transformers / effect traces;
  * the FTS query rewriter (`Index.__getitem__`) is embedded as an
    executable tokenizer reproducing the greedy regex semantics of
    `re.findall` on the pattern used by the source;
  * `items`, the `None`-key lookup and the typed-record codec are embedded
    with their Python error behaviour (unbound locals, missing SQL column,
    calling a `None` constructor) made explicit via `Except`.
-/

namespace Shadb

/-- Result of evaluating an index projection `self._f(o)` on a document.
Non-string scalars are represented by their canonical JSON rendering
(`json.dumps(·, sort_keys=True)`), which is all `Index._normalize` keeps. -/
inductive Elem where
  | estr (s : String)
  | enull
  | eraw (dump : String)
  deriving DecidableEq, Repr

/-- A projection value: Python `None`, a string, another scalar (kept as its
canonical JSON dump), or a list of elements (`Index.update` special-cases
`isinstance(value, list)` only at the top level). -/
inductive ProjVal where
  | vnull
  | vstr (s : String)
  | vraw (dump : String)
  | vlist (es : List Elem)
  deriving DecidableEq, Repr

/-- `Index._normalize` on a list element: strings pass through, anything
else (including `None`) is its canonical JSON dump. -/
def normalizeElem : Elem → String
  | .estr s => s
  | .enull => "null"
  | .eraw d => d

/-- The keys inserted for one document by the body of `Index.update`
(lines 325-330): skip when the projection is `None` and the index was not
declared `index_null`; one row per element when the value is a list;
otherwise a single row holding the normalized value. -/
def emittedKeys (indexNull : Bool) : ProjVal → List String
  | .vnull => if indexNull then [normalizeElem .enull] else []
  | .vstr s => [s]
  | .vraw d => [d]
  | .vlist es => es.map normalizeElem

/-- An index table: the rows of `idx_<name>__V<hash>`, each a `(fn, key)`
pair, in insertion order. -/
abbrev Tbl := List (String × String)

/-- The keys of the rows whose `fn` column equals `x`, in row order
(`select key from tbl where fn = x`). -/
def rowsFor (t : Tbl) (x : String) : List String :=
  (t.filter fun r => r.1 = x).map Prod.snd

/-- `delete from tbl where fn = ?` (line 315). -/
def delFn (t : Tbl) (fn : String) : Tbl :=
  t.filter fun r => ¬ r.1 = fn

/-- `update tbl set fn = new where fn = old` (line 313, the `R100` case). -/
def renameFn (t : Tbl) (old new : String) : Tbl :=
  t.map fun r => if r.1 = old then (new, r.2) else r

/-- `insert into tbl (fn, key) values (?, ?)` (non-unique index). -/
def insertRow (t : Tbl) (fn k : String) : Tbl :=
  t ++ [(fn, k)]

/-- `replace into tbl (fn, key) values (?, ?)` on a table whose PRIMARY KEY
is `key` (unique index): SQLite deletes any row with the same key before
inserting. -/
def replaceRow (t : Tbl) (fn k : String) : Tbl :=
  (t.filter fun r => ¬ r.2 = k) ++ [(fn, k)]

/-- The insert loop of `Index.update` lines 326-330: one SQL insert (or
replace) per emitted key. -/
def insertKeys (unique : Bool) (t : Tbl) (fn : String) (ks : List String) : Tbl :=
  ks.foldl (fun t k => if unique then replaceRow t fn k else insertRow t fn k) t

/-- A parsed `git diff --name-status` status letter. -/
inductive DStat where
  | A
  | C
  | M
  | D
  | R (score : Nat)
  deriving DecidableEq, Repr

/-- Whether the status starts with `R` (a rename of any score). -/
def DStat.isRen : DStat → Bool
  | .R _ => true
  | _ => false

/-- A parsed diff line: `(status, fn, *other)`; `other` is nonempty exactly
for renames, where `other.head` is the rename target. -/
abbrev Change := DStat × String × List String

/-- Python `fn.endswith('.json')` (line 310), computed over the character
list so that concrete instances evaluate by kernel reduction. -/
def endsWithJson (fn : String) : Bool :=
  List.isPrefixOf (".json".toList.reverse) fn.toList.reverse

/-- Line 312-313: on a pure rename (`R100`) repoint the rows from the old
path to the new one. -/
def renStep (t : Tbl) (st : DStat) (fn : String) (other : List String) : Tbl :=
  if st = .R 100 then renameFn t fn (other.headD "") else t

/-- The deletion condition of line 314. -/
def delCond (unique : Bool) (st : DStat) : Prop :=
  st = .D ∨ (st = .M ∧ ¬ unique) ∨ (st.isRen ∧ ¬ st = .R 100)

instance (unique : Bool) (st : DStat) : Decidable (delCond unique st) := by
  unfold delCond
  infer_instance

/-- Lines 314-315: delete the rows of the old path. -/
def delStep (unique : Bool) (t : Tbl) (st : DStat) (fn : String) : Tbl :=
  if delCond unique st then delFn t fn else t

/-- The insertion condition of line 316. -/
def insCond (st : DStat) : Prop :=
  st = .A ∨ st = .C ∨ st = .M ∨ (st.isRen ∧ ¬ st = .R 100)

instance (st : DStat) : Decidable (insCond st) := by
  unfold insCond
  infer_instance

/-- Lines 316-333: load the file at its (possibly renamed) path from disk
— a missing file (`FileNotFoundError`) is skipped — and insert one row per
emitted key. -/
def insStep (unique indexNull : Bool) {Doc : Type} (f : Doc → ProjVal)
    (disk : String → Option Doc) (t : Tbl) (st : DStat) (fn : String)
    (other : List String) : Tbl :=
  if insCond st then
    let fn := if st.isRen then other.headD "" else fn
    match disk fn with
    | none => t
    | some d => insertKeys unique t fn (emittedKeys indexNull (f d))
  else t

/-- One iteration of the `for status, fn, *other in changes` loop of
`Index.update` (lines 308-333), acting on the table.  `disk` is the working
tree, because `self._db.load(fn)` reads the file from disk. -/
def applyChange (unique indexNull : Bool) {Doc : Type} (f : Doc → ProjVal)
    (disk : String → Option Doc) (t : Tbl) (c : Change) : Tbl :=
  let (st, fn, other) := c
  if ¬ endsWithJson fn then t
  else
    insStep unique indexNull f disk
      (delStep unique (renStep t st fn other) st fn) st fn other

/-- The also-fns hints appended to the change list by lines 306-307:
`('M' if fn in self._db else 'D', fn)`, where membership is a disk check. -/
def alsoChanges {Doc : Type} (disk : String → Option Doc) (alsoFns : List String) :
    List Change :=
  alsoFns.map fun fn => (if (disk fn).isSome then DStat.M else DStat.D, fn, [])

/-- The whole row-maintenance part of `Index.update`: fold the parsed diff
lines followed by the `also_fns` hints over the table. -/
def updateRows (unique indexNull : Bool) {Doc : Type} (f : Doc → ProjVal)
    (disk : String → Option Doc) (t : Tbl) (diffChanges : List Change)
    (alsoFns : List String) : Tbl :=
  (diffChanges ++ alsoChanges disk alsoFns).foldl
    (applyChange unique indexNull f disk) t

/-- The rows an index should hold for path `x` under tree `tree`: the
emitted keys of the projection of the document at `x`, provided `x` is a
`.json` file present in the tree; nothing otherwise. -/
def expectedRows (indexNull : Bool) {Doc : Type} (f : Doc → ProjVal)
    (tree : String → Option Doc) (x : String) : List String :=
  if endsWithJson x then
    match tree x with
    | some d => emittedKeys indexNull (f d)
    | none => []
  else []

/-! ## The commit scope (`Commit`)

The scope runs while `indexed_state` is caught up with HEAD and performs no
git commit before exit, so every in-scope `Index.update` sees an empty
`git diff last_hash HEAD` and processes only its `also_fns` hints. -/

/-- `Index.update` invoked with an up-to-date `indexed_state` (empty diff):
only the `also_fns` hints are processed. -/
def updateAlso (unique indexNull : Bool) {Doc : Type} (f : Doc → ProjVal)
    (disk : String → Option Doc) (t : Tbl) (alsoFns : List String) : Tbl :=
  updateRows unique indexNull f disk t [] alsoFns

/-- The in-scope database state: the working tree (`disk`), the committed
tree at HEAD (`head`, unchanged during the scope), the staged content of
the paths with a staged git-index change (`gitIndex`; `none` means the
index entry matches HEAD), the scope's pending path list (`Commit._fns`)
and one index table. -/
structure ScState (Doc : Type) where
  disk : String → Option Doc
  head : String → Option Doc
  gitIndex : String → Option Doc
  pending : List String
  tbl : Tbl

/-- `SHADB.dump(o, fn, _update_idx=False)` (lines 106-112): write the file
and `git add` it iff it did not already exist on disk; `git add` stages the
just-written content. -/
def dumpFile {Doc : Type} (st : ScState Doc) (fn : String) (d : Doc) : ScState Doc :=
  let existed := (st.disk fn).isSome
  { st with
    disk := fun x => if x = fn then some d else st.disk x
    gitIndex :=
      if existed then st.gitIndex
      else fun x => if x = fn then some d else st.gitIndex x }

/-- `Commit.store(*objects)` (lines 190-232), given the path and encoded
document of each stored object: dump every file, extend the pending list,
then run one index update with the new paths as hints. -/
def commitStore (unique indexNull : Bool) {Doc : Type} (f : Doc → ProjVal)
    (st : ScState Doc) (writes : List (String × Doc)) : ScState Doc :=
  let st1 := writes.foldl (fun s w => dumpFile s w.1 w.2) st
  { st1 with
    pending := st1.pending ++ writes.map Prod.fst
    tbl := updateAlso unique indexNull f st1.disk st1.tbl (writes.map Prod.fst) }

/-- A path whose first `git status --porcelain` field is exactly `A`
(which is what `x[0]=='A'` at line 179 selects): a staged entry absent from
HEAD whose working-tree content still equals the staged content.  A path
re-written after staging reports `AM` (and a staged path unlinked from disk
reports `AD`), both failing the code's test. -/
def statusAdded {Doc : Type} [DecidableEq Doc] (st : ScState Doc) (x : String) : Bool :=
  (st.gitIndex x).isSome && (st.head x).isNone && decide (st.disk x = st.gitIndex x)

/-- `Commit._abort` (lines 177-183): when the pending list is nonempty,
collect the staged-added (`A`) paths, `git reset` the pending paths (drop
their staged entries), unlink the collected paths from disk, and re-run the
index update with the pending paths as hints. -/
def scopeAbort (unique indexNull : Bool) {Doc : Type} [DecidableEq Doc]
    (f : Doc → ProjVal) (st : ScState Doc) : ScState Doc :=
  if st.pending = [] then st
  else
    let toDelete := fun x => statusAdded st x
    let gitIndex1 := fun x => if st.pending.contains x then none else st.gitIndex x
    let disk1 := fun x => if toDelete x then none else st.disk x
    { st with
      disk := disk1
      gitIndex := gitIndex1
      tbl := updateAlso unique indexNull f disk1 st.tbl st.pending }

/-- A commit scope body: a sequence of `store` calls, each a batch of
`(path, encoded document)` writes. -/
def runScope (unique indexNull : Bool) {Doc : Type} (f : Doc → ProjVal)
    (st : ScState Doc) (calls : List (List (String × Doc))) : ScState Doc :=
  calls.foldl (commitStore unique indexNull f) st

/-! ## Effect traces for `SHADB.delete` and the scope exit -/

/-- An externally visible effect of a database method. -/
inductive Eff where
  | gitRm (fns : List String)
  | gitCommit (fns : List String) (m : Option String)
  | gitReset (fns : List String)
  | fsRemove (fn : String)
  | idxUpdate (alsoFns : List String)
  deriving DecidableEq, Repr

/-- Whether an effect is an index update. -/
def Eff.isIdxUpdate : Eff → Bool
  | .idxUpdate _ => true
  | _ => false

/-- A Python exception kind surfaced by the embedding. -/
inductive PyErr where
  | typeError
  | unboundLocal
  deriving DecidableEq, Repr

/-- `SHADB.delete(*fns, commit=...)` (lines 135-140) as an effect trace.
The class body of `SHADB` defines `commit` twice: the later definition
`commit(self, m=None)` (line 160) shadows `commit(self, *fns_or_objects,
update=True)` (line 145), so `self.commit(*fns)` on the `commit=True`
branch resolves to the one-parameter version: with a single path it merely
constructs a `Commit` envelope object (no effect); with two or more paths
it raises `TypeError` (too many positional arguments). -/
def deleteRun (fns : List String) (commit : Bool) : Except PyErr (List Eff) :=
  if commit then
    match fns with
    | [] => .ok [Eff.gitRm fns]
    | [_] => .ok [Eff.gitRm fns]
    | _ => .error .typeError
  else .ok [Eff.gitRm fns, Eff.idxUpdate fns]

/-- `Commit._commit` (lines 185-188) as an effect trace: a git commit of
the pending paths when the list is nonempty; the `idx.update()` call on
this path is commented out in the source. -/
def commitExitEffects (fns : List String) (m : Option String) : List Eff :=
  if fns = [] then [] else [Eff.gitCommit fns m]

/-- `Commit._abort` (lines 177-183) as an effect trace: when the pending
list is nonempty, `git reset` of the pending paths, one unlink per
staged-added path, then the index update with the pending paths as hints. -/
def abortEffects (fns toDelete : List String) : List Eff :=
  if fns = [] then []
  else Eff.gitReset fns :: toDelete.map Eff.fsRemove ++ [Eff.idxUpdate fns]

/-! ## The FTS query rewriter (`Index.__getitem__`, lines 350-355)

The tokenizer reproduces `re.findall` on the source's pattern
`(?:[^\s,"]|"(?:\\.|[^"])*")+` with Python's leftmost-greedy backtracking
semantics, restricted to ASCII case mapping and the ASCII whitespace class. -/

/-- Python's `\s` on ASCII input. -/
def pySpace (c : Char) : Bool :=
  c = ' ' || c = '\t' || c = '\n' || c = '\r' || c = '\x0B' || c = '\x0C'

/-- A character matched by the bare alternative `[^\s,"]`. -/
def bareChar (c : Char) : Bool :=
  !pySpace c && !(c = ',') && !(c = '"')

/-- Matching of `(?:\\.|[^"])*"` after an opening quote, with Python's
preference order: a greedy star preferring `\\.` over `[^"]`, backtracking
into the last iteration's alternative when the closing quote cannot be
found.  Returns the consumed characters (closing quote included) and the
rest.  `fuel` bounds the recursion; any `fuel > cs.length` is exact. -/
def qtail : Nat → List Char → Option (List Char × List Char)
  | 0, _ => none
  | _ + 1, [] => none
  | fuel + 1, c :: rest =>
    if c = '"' then some (['"'], rest)
    else if c = '\\' then
      match rest with
      | [] => none
      | c2 :: rest2 =>
        if c2 = '\n' then
          match qtail fuel rest with
          | some (con, r) => some ('\\' :: con, r)
          | none => none
        else
          match qtail fuel rest2 with
          | some (con, r) => some ('\\' :: c2 :: con, r)
          | none =>
            match qtail fuel rest with
            | some (con, r) => some ('\\' :: con, r)
            | none => none
    else
      match qtail fuel rest with
      | some (con, r) => some (c :: con, r)
      | none => none

/-- One unit of the token pattern: a bare character or a quoted group. -/
def matchUnit (fuel : Nat) (cs : List Char) : Option (List Char × List Char) :=
  match cs with
  | [] => none
  | c :: rest =>
    if c = '"' then
      match qtail fuel rest with
      | some (con, r) => some ('"' :: con, r)
      | none => none
    else if bareChar c then some ([c], rest)
    else none

/-- The greedy `+` over units: consume units until none matches. -/
def matchUnits : Nat → List Char → List Char × List Char
  | 0, cs => ([], cs)
  | fuel + 1, cs =>
    match matchUnit fuel cs with
    | none => ([], cs)
    | some (con, rest) =>
      let (con2, rest2) := matchUnits fuel rest
      (con ++ con2, rest2)

/-- `re.findall`: scan left to right, emit each nonempty match, advance one
character where no match starts. -/
def findTokens : Nat → List Char → List (List Char)
  | 0, _ => []
  | fuel + 1, cs =>
    match cs with
    | [] => []
    | _ :: rest =>
      match matchUnits (fuel + 1) cs with
      | ([], _) => findTokens fuel rest
      | (con, rest2) => con :: findTokens fuel rest2

/-- `re.findall(r'(?:[^\s,"]|"(?:\\.|[^"])*")+', key)` (line 352). -/
def ftsTokens (s : String) : List String :=
  (findTokens (s.toList.length + 1) s.toList).map String.mk

/-- The FTS5 operator words (line 351). -/
def cmdWords : List String := ["and", "or", "not"]

/-- Python `s.lower()` on ASCII input. -/
def pyLower (s : String) : String :=
  String.mk (s.toList.map Char.toLower)

/-- Python `s.upper()` on ASCII input. -/
def pyUpper (s : String) : String :=
  String.mk (s.toList.map Char.toUpper)

/-- Line 353: upper-case a token whose lower-casing is an operator word. -/
def opCase (s : String) : String :=
  if pyLower s ∈ cmdWords then pyUpper s else s

/-- Line 354's `re.search` for a dash or slash character class. -/
def hasDashSlash (s : String) : Bool :=
  s.toList.any fun c => c = '-' || c = '/'

/-- Python `s.strip('"')`: drop every leading and trailing quote. -/
def stripQuotes (s : String) : String :=
  String.mk (((s.toList.dropWhile (· = '"')).reverse.dropWhile (· = '"')).reverse)

/-- Line 354: wrap a token containing `-` or `/` in double quotes (after
stripping any quotes it already carries). -/
def quoteWrap (s : String) : String :=
  if hasDashSlash s then "\"" ++ stripQuotes s ++ "\"" else s

/-- The full rewriter of lines 350-355: tokenize, fix operator case, wrap
dash/slash tokens, join with single spaces. -/
def ftsRewrite (key : String) : String :=
  String.intercalate " " (((ftsTokens key).map opCase).map quoteWrap)

/-! ## `Index.items` (lines 390-407) and the LIKE filter -/

/-- SQLite `LIKE` on ASCII text: `%` matches any run, `_` any single
character, letters compare case-insensitively.  `fuel` bounds recursion;
any `fuel > p.length + s.length` is exact. -/
def likeChars : Nat → List Char → List Char → Bool
  | 0, _, _ => false
  | fuel + 1, p, s =>
    match p with
    | [] => s.isEmpty
    | pc :: ps =>
      if pc = '%' then
        likeChars fuel ps s ||
          (match s with
           | [] => false
           | _ :: t => likeChars fuel (pc :: ps) t)
      else
        match s with
        | [] => false
        | c :: t => (pc = '_' || c.toLower = pc.toLower) && likeChars fuel ps t

/-- `key LIKE pattern`. -/
def likeMatch (p s : String) : Bool :=
  likeChars (p.toList.length + s.toList.length + 1) p.toList s.toList

/-- `select distinct`: keep the first occurrence of each row. -/
def dedupRows (rows : List (Option String × String)) : List (Option String × String) :=
  rows.foldl (fun acc r => if acc.contains r then acc else acc ++ [r]) []

/-- SQLite `order by key` comparison: NULL sorts first, text bytewise. -/
def keyLe (a b : Option String) : Bool :=
  match a, b with
  | none, _ => true
  | some _, none => false
  | some x, some y => x ≤ y

/-- Insert a row into a key-sorted list. -/
def insertSorted (r : Option String × String) :
    List (Option String × String) → List (Option String × String)
  | [] => [r]
  | x :: xs => if keyLe r.1 x.1 then r :: x :: xs else x :: insertSorted r xs

/-- Sort rows by key (insertion sort; stable, NULLs first). -/
def sortRows (rows : List (Option String × String)) : List (Option String × String) :=
  rows.foldr insertSorted []

/-- The rows produced by the `items` query (lines 393-396):
`select distinct key, fn from tbl [where key like ?] order by key`.
A NULL key never satisfies `key like ?`. -/
def itemsQuery (pat : Option String) (tbl : List (Option String × String)) :
    List (Option String × String) :=
  let rows :=
    match pat with
    | some p => tbl.filter fun r =>
        match r.1 with
        | some k => likeMatch p k
        | none => false
    | none => tbl
  sortRows (dedupRows rows)

/-- A value yielded by the `items` generator. -/
inductive PyYield where
  | pair (k : Option String) (fn : String)
  | group (k : Option String) (fns : List String)
  deriving DecidableEq, Repr

/-- The loop of `Index.items` (lines 397-407) over the fetched rows.
`keyVar` models the Python local `key`: `none` while it is still unbound;
`lastKey` models `last_key`, whose `none` is Python's `None` sentinel
(which coincides with a NULL key).  After the loop, the non-unique branch
yields `key, values`, raising `UnboundLocalError` when `key` was never
bound. -/
def itemsLoop (unique : Bool) :
    List (Option String × String) → Option (Option String) → Option String →
    List String → List PyYield → Except PyErr (List PyYield)
  | [], keyVar, _lastKey, values, acc =>
    if unique then .ok acc
    else
      match keyVar with
      | none => .error .unboundLocal
      | some k => .ok (acc ++ [.group k values])
  | (k, fn) :: rows, _keyVar, lastKey, values, acc =>
    if unique then itemsLoop unique rows (some k) lastKey values (acc ++ [.pair k fn])
    else
      let step :=
        if ¬ k = lastKey then
          ((if ¬ lastKey = none then acc ++ [.group lastKey values] else acc),
            (k, ([] : List String)))
        else (acc, (lastKey, values))
      itemsLoop unique rows (some k) step.2.1 (step.2.2 ++ [fn]) step.1

/-- `Index.items(like)` on an index table. -/
def itemsRun (unique : Bool) (pat : Option String)
    (tbl : List (Option String × String)) : Except PyErr (List PyYield) :=
  itemsLoop unique (itemsQuery pat tbl) none none [] []

/-! ## The `None`-key lookup (`Index.__getitem__`, lines 356-365) -/

/-- The comparison operator of the built `select`. -/
inductive CmpOp where
  | opEq
  | opLike
  | opIsNull
  deriving DecidableEq, Repr

/-- The query built by `__getitem__` for a standard (non-FTS) index:
selected column `fn`, one comparison on `whereCol`. -/
structure SelQuery where
  whereCol : String
  op : CmpOp
  arg : Option String
  limit1 : Bool
  deriving DecidableEq, Repr

/-- The columns of a standard index table (`Index._init_db`, lines
270-275): `key` and `fn`. -/
def stdTableCols : List String := ["key", "fn"]

/-- The query text construction of lines 358-365 for a standard index:
a `None` key issues `... where value is null`; otherwise the comparison is
`like` when the (normalized) key contains `%`, else `=`. -/
def getitemQuery (unique : Bool) (key : Option String) : SelQuery :=
  match key with
  | none => { whereCol := "value", op := .opIsNull, arg := none, limit1 := unique }
  | some k =>
      { whereCol := "key", op := if k.contains '%' then .opLike else .opEq,
        arg := some k, limit1 := unique }

/-- A SQLite error raised while preparing or running a statement. -/
inductive SqlErr where
  | noSuchColumn (col : String)
  deriving DecidableEq, Repr

/-- Execute a built query against a standard index table (rows are
`(key, fn)` with a possibly NULL key).  SQLite rejects the statement at
prepare time when the referenced column is not in the table's schema. -/
def execSelect (tbl : List (Option String × String)) (q : SelQuery) :
    Except SqlErr (List String) :=
  if ¬ stdTableCols.contains q.whereCol then .error (.noSuchColumn q.whereCol)
  else
    let rows := tbl.filter fun r =>
      match q.op, r.1 with
      | .opIsNull, k => k.isNone
      | .opEq, some k => q.arg = some k
      | .opLike, some k =>
          match q.arg with
          | some p => likeMatch p k
          | none => false
      | _, none => false
    .ok (((if q.limit1 then rows.take 1 else rows).map Prod.snd))

/-! ## The typed-record codec (`Commit.store` lines 196-206, `SHADB.load`
lines 118-133)

The JSON file round trip (`json.dump` with sorted keys / `json.load`) is
the out-of-scope external serializer; the object written and the object
read back are the same mapping, modelled as an association list. -/

/-- A JSON value. -/
inductive JVal where
  | jstr (s : String)
  | jnum (n : Int)
  | jbool (b : Bool)
  | jnull
  | jarr (es : List JVal)
  | jobj (fields : List (String × JVal))

/-- A JSON object / Python dict. -/
abbrev JMap := List (String × JVal)

/-- `k in o`. -/
def jmapHas (o : JMap) (k : String) : Bool :=
  o.any fun e => e.1 = k

/-- `o.get(k)` / `o[k]`. -/
def jmapLookup (o : JMap) (k : String) : Option JVal :=
  (o.find? fun e => decide (e.1 = k)).map Prod.snd

/-- `del o[k]`. -/
def jmapErase (o : JMap) (k : String) : JMap :=
  o.filter fun e => ¬ e.1 = k

/-- `o[k] = v`: overwrite an existing binding, else append. -/
def jmapSet (o : JMap) (k : String) (v : JVal) : JMap :=
  if jmapHas o k then o.map fun e => if e.1 = k then (k, v) else e
  else o ++ [(k, v)]

/-- The kind of a registered typed record. -/
inductive RecKind where
  | dataclass
  | namedtuple
  deriving DecidableEq, Repr

/-- The encoding step of `Commit.store` (lines 197-204): convert the record
to a field mapping and inject the discriminator key holding the class
name. -/
def storeEncode {Doc : Type} (kind : Doc → RecKind) (clsName : Doc → String)
    (asdict : Doc → JMap) (r : Doc) : JMap :=
  match kind r with
  | .dataclass => jmapSet (asdict r) "__dataclass__" (.jstr (clsName r))
  | .namedtuple => jmapSet (asdict r) "__namedtuple__" (.jstr (clsName r))

/-- The result of `SHADB.load`. -/
inductive Loaded (Doc : Type) where
  | typed (d : Doc)
  | rawObj (o : JMap)

/-- The decoding step of `SHADB.load` (lines 121-130): when a discriminator
key is present, look up the registered constructor by class name, strip the
discriminator and reconstruct; an unregistered name means `cls` is `None`
and `cls(**o)` raises `TypeError`.  Without a discriminator the raw mapping
is returned. -/
def loadDecode {Doc : Type} (classes : String → Option (JMap → Doc)) (o : JMap) :
    Except PyErr (Loaded Doc) :=
  match jmapLookup o "__dataclass__" with
  | some v =>
    match (match v with | .jstr s => some s | _ => none).bind classes with
    | some ctor => .ok (.typed (ctor (jmapErase o "__dataclass__")))
    | none => .error .typeError
  | none =>
    match jmapLookup o "__namedtuple__" with
    | some v =>
      match (match v with | .jstr s => some s | _ => none).bind classes with
      | some ctor => .ok (.typed (ctor (jmapErase o "__namedtuple__")))
      | none => .error .typeError
    | none => .ok (.rawObj o)

/-- The tables reachable for a unique index: the freshly created table is
empty, and every write to it goes through an `Index.update` change
application. -/
inductive ReachU (indexNull : Bool) {Doc : Type} (f : Doc → ProjVal) : Tbl → Prop where
  | init : ReachU indexNull f []
  | step (t : Tbl) (disk : String → Option Doc) (c : Change) :
      ReachU indexNull f t → ReachU indexNull f (applyChange true indexNull f disk t c)

/-- The invariant maintained while a commit scope runs, relative to the
pre-scope state `st0`: `Q` is the pending list so far; each pending path is
on disk with its content staged (each path being stored only once, the
staged and working-tree contents agree); the rest of the tree and staging
area are untouched; the table is the pre-scope table plus rows for pending
paths only. -/
def scopeInv {Doc : Type} (st0 st : ScState Doc) (Q : List String) : Prop :=
  st.head = st0.head ∧
  st.pending = Q ∧
  (∀ x, ¬ x ∈ Q → st.gitIndex x = st0.gitIndex x) ∧
  (∀ x, ¬ x ∈ Q → st.disk x = st0.disk x) ∧
  (∀ x ∈ Q, (st.disk x).isSome = true) ∧
  (∀ x ∈ Q, st.gitIndex x = st.disk x) ∧
  (∃ extra, st.tbl = st0.tbl ++ extra ∧ ∀ r ∈ extra, r.1 ∈ Q)

/-- The paths whose rows a change may affect: its subject, and for a rename
also the target path. -/
def touches (c : Change) (y : String) : Prop :=
  y = c.2.1 ∨ (c.1.isRen = true ∧ y = c.2.2.headD "")

instance (c : Change) (y : String) : Decidable (touches c y) := by
  unfold touches
  infer_instance

/-- Two changes affecting disjoint path sets. -/
def touchDisjoint (c1 c2 : Change) : Prop :=
  ∀ y, ¬ (touches c1 y ∧ touches c2 y)

/-- The contract of one `git diff --name-status lastT headT` line: what the
status letter says about the two trees.  For a rename the score-100 case
means identical content, and git's rename detection never pairs files
across the `.json` boundary of this store's layout. -/
def ChangeOK {Doc : Type} (lastT headT : String → Option Doc) (c : Change) : Prop :=
  match c with
  | (.A, fn, _) => lastT fn = none ∧ (headT fn).isSome = true
  | (.C, fn, _) => lastT fn = none ∧ (headT fn).isSome = true
  | (.M, fn, _) => (lastT fn).isSome = true ∧ (headT fn).isSome = true
  | (.D, fn, _) => (lastT fn).isSome = true ∧ headT fn = none
  | (.R n, fn, other) =>
      ¬ other = [] ∧ ¬ fn = other.headD "" ∧
      (lastT fn).isSome = true ∧ lastT (other.headD "") = none ∧
      headT fn = none ∧ (headT (other.headD "")).isSome = true ∧
      (n = 100 → headT (other.headD "") = lastT fn) ∧
      endsWithJson fn = endsWithJson (other.headD "")

/-- A well-formed diff: every line satisfies its status contract, no two
lines affect the same path, and paths affected by no line agree between the
two trees. -/
def ValidDiff {Doc : Type} (lastT headT : String → Option Doc)
    (cs : List Change) : Prop :=
  (∀ c ∈ cs, ChangeOK lastT headT c) ∧
  List.Pairwise touchDisjoint cs ∧
  (∀ y, (∀ c ∈ cs, ¬ touches c y) → lastT y = headT y)

/-- The tree the spec's invariant I1 describes: HEAD overridden by the
working-tree content of the hinted (staged but uncommitted) paths. -/
def effTree {Doc : Type} (disk headT : String → Option Doc)
    (alsoFns : List String) : String → Option Doc :=
  fun y => if y ∈ alsoFns then disk y else headT y

/-- The last-indexed tree of the C4 counterexample: `a.json` holds a
document projecting to key `k` (documents are `Option String`; the
projection maps `none` to a null key). -/
def c4Last : String → Option (Option String) :=
  fun x => if x = "a.json" then some (some "k") else none

/-- HEAD of the C4 counterexample: `a.json` was modified and its new
content projects to null. -/
def c4Head : String → Option (Option String) :=
  fun x => if x = "a.json" then some none else none

/-- The projection of the C4 scenario: the document itself when present,
null otherwise. -/
def c4Proj : Option String → ProjVal :=
  fun d => match d with
  | some s => .vstr s
  | none => .vnull

/-- HEAD of the C4 witness: one added file whose document projects to `k`. -/
def c4wHead : String → Option (Option String) :=
  fun x => if x = "a.json" then some (some "k") else none

/-- The pre-scope state of the C1 counterexample: one committed file
holding a document whose projection key is `k1`, a clean staging area, and
a caught-up index table. -/
def c1Pre : ScState String :=
  { disk := fun x => if x = "a/obj-a.json" then some "k1" else none
    head := fun x => if x = "a/obj-a.json" then some "k1" else none
    gitIndex := fun _ => none
    pending := []
    tbl := [("a/obj-a.json", "k1")] }

/-- The C1 counterexample run: a scope stores a new document at the same
path (the unique-key overwrite pattern), then aborts. -/
def c1Post : ScState String :=
  scopeAbort false false ProjVal.vstr
    (runScope false false ProjVal.vstr c1Pre [[("a/obj-a.json", "k2")]])

/-- The all-fresh pre-scope state used by the C1 witness. -/
def c1wPre : ScState String :=
  { disk := fun _ => none
    head := fun _ => none
    gitIndex := fun _ => none
    pending := []
    tbl := [] }

/-! ## Basic table lemmas -/

theorem rowsFor_nil (x : String) : rowsFor [] x = [] := rfl

theorem rowsFor_append (t t' : Tbl) (x : String) :
    rowsFor (t ++ t') x = rowsFor t x ++ rowsFor t' x := by
  simp [rowsFor, List.filter_append]

theorem rowsFor_cons (r : String × String) (t : Tbl) (x : String) :
    rowsFor (r :: t) x = (if r.1 = x then [r.2] else []) ++ rowsFor t x := by
  by_cases h : r.1 = x <;> simp [rowsFor, List.filter_cons, h]

theorem delFn_cons (r : String × String) (t : Tbl) (fn : String) :
    delFn (r :: t) fn = (if r.1 = fn then [] else [r]) ++ delFn t fn := by
  by_cases h : r.1 = fn <;> simp [delFn, List.filter_cons, h]

theorem rowsFor_delFn (t : Tbl) (fn x : String) :
    rowsFor (delFn t fn) x = if x = fn then [] else rowsFor t x := by
  induction t with
  | nil => by_cases h : x = fn <;> simp [delFn, rowsFor, h]
  | cons r t ih =>
    rw [delFn_cons, rowsFor_append, ih]
    by_cases h : r.1 = fn
    · by_cases h2 : x = fn
      · simp [h, h2, rowsFor_nil]
      · simp [h, h2, rowsFor_nil, rowsFor_cons, Ne.symm h2]
    · by_cases h2 : x = fn
      · simp [h, h2, rowsFor_cons, rowsFor_nil,
          show ¬ r.1 = x from fun he => h (h2 ▸ he)]
      · simp [h, h2, rowsFor_cons, rowsFor_nil]

theorem delFn_append (t t' : Tbl) (fn : String) :
    delFn (t ++ t') fn = delFn t fn ++ delFn t' fn := by
  simp [delFn, List.filter_append]

theorem renameFn_cons (r : String × String) (t : Tbl) (old new : String) :
    renameFn (r :: t) old new
      = (if r.1 = old then (new, r.2) else r) :: renameFn t old new := rfl

theorem rowsFor_renameFn_other (t : Tbl) (old new x : String)
    (hx : ¬ x = old) (hx' : ¬ x = new) :
    rowsFor (renameFn t old new) x = rowsFor t x := by
  induction t with
  | nil => rfl
  | cons r t ih =>
    rw [renameFn_cons, rowsFor_cons, rowsFor_cons, ih]
    congr 1
    by_cases h : r.1 = old
    · simp [h, Ne.symm hx, Ne.symm hx']
    · simp [h]

theorem rowsFor_renameFn_old (t : Tbl) (old new : String) (hne : ¬ old = new) :
    rowsFor (renameFn t old new) old = [] := by
  induction t with
  | nil => rfl
  | cons r t ih =>
    rw [renameFn_cons, rowsFor_cons, ih]
    by_cases h : r.1 = old
    · simp [h, Ne.symm hne]
    · simp [h]

theorem rowsFor_renameFn_new (t : Tbl) (old new : String)
    (hnew : rowsFor t new = []) :
    rowsFor (renameFn t old new) new = rowsFor t old := by
  induction t with
  | nil => rfl
  | cons r t ih =>
    rw [rowsFor_cons] at hnew
    rcases List.append_eq_nil.mp hnew with ⟨h1, h2⟩
    rw [renameFn_cons, rowsFor_cons, rowsFor_cons, ih h2]
    by_cases h : r.1 = old
    · simp [h]
    · have hrn : ¬ r.1 = new := by
        intro hr
        simp [hr] at h1
      simp [h, hrn]

theorem insertKeys_false_cons (t : Tbl) (fn k : String) (ks : List String) :
    insertKeys false t fn (k :: ks) = insertKeys false (t ++ [(fn, k)]) fn ks := by
  simp [insertKeys, insertRow]

theorem rowsFor_insertKeys_false_self (t : Tbl) (fn : String) (ks : List String) :
    rowsFor (insertKeys false t fn ks) fn = rowsFor t fn ++ ks := by
  induction ks generalizing t with
  | nil => simp [insertKeys]
  | cons k ks ih =>
    rw [insertKeys_false_cons, ih, rowsFor_append, rowsFor_cons]
    simp [rowsFor_nil]

theorem rowsFor_insertKeys_false_other (t : Tbl) (fn x : String) (ks : List String)
    (h : ¬ x = fn) :
    rowsFor (insertKeys false t fn ks) x = rowsFor t x := by
  induction ks generalizing t with
  | nil => simp [insertKeys]
  | cons k ks ih =>
    rw [insertKeys_false_cons, ih, rowsFor_append, rowsFor_cons]
    simp [rowsFor_nil, Ne.symm h]

/-! ## C6: null and list emission policy -/

/-- **C6.** For every index update processing a document: a `None`
projection inserts no row unless the index was declared `index_null` (in
which case one `"null"` row); a list projection inserts exactly one row per
element; any other single value yields exactly one row; and on the
non-unique insert path the table gains exactly the emitted rows for that
file. -/
theorem C6_null_and_list_policy :
    (emittedKeys false .vnull = [] ∧ emittedKeys true .vnull = ["null"]) ∧
    (∀ (inull : Bool) (es : List Elem),
      (emittedKeys inull (.vlist es)).length = es.length) ∧
    (∀ (inull : Bool) (s : String), emittedKeys inull (.vstr s) = [s]) ∧
    (∀ (inull : Bool) (d : String), emittedKeys inull (.vraw d) = [d]) ∧
    (∀ (t : Tbl) (fn : String) (ks : List String),
      rowsFor (insertKeys false t fn ks) fn = rowsFor t fn ++ ks) := by
  refine ⟨⟨rfl, rfl⟩, ?_, fun _ _ => rfl, fun _ _ => rfl, rowsFor_insertKeys_false_self⟩
  intro inull es
  simp [emittedKeys]

/-! ## C2: `delete` with `commit=True` -/

/-- **C2** (code evaluation).  Because the later definition
`SHADB.commit(self, m=None)` (line 160) shadows
`SHADB.commit(self, *fns_or_objects, update=True)` (line 145),
`delete(fn, commit=True)` performs only the `git rm` — no git commit and no
index update — and `delete(fn1, fn2, commit=True)` raises `TypeError`.
With `commit=False` the index update runs with the paths as hints. -/
theorem C2_delete_commit_shadowed :
    deleteRun ["a.json"] true = .ok [Eff.gitRm ["a.json"]] ∧
    deleteRun ["a.json", "b.json"] true = .error .typeError ∧
    deleteRun ["a.json"] false
      = .ok [Eff.gitRm ["a.json"], Eff.idxUpdate ["a.json"]] :=
  ⟨rfl, rfl, rfl⟩

/-! ## C3: the success exit of a commit scope -/

/-- **C3** (counterexample).  A successful scope exit with pending path
`a.json` performs exactly the git commit: its effect trace contains no
index update, refuting the claim that the maintenance engine runs at the
success exit. -/
theorem C3_counterexample :
    commitExitEffects ["a.json"] (some "m")
      = [Eff.gitCommit ["a.json"] (some "m")] ∧
    (commitExitEffects ["a.json"] (some "m")).all (fun e => !e.isIdxUpdate)
      = true :=
  ⟨rfl, rfl⟩

/-- **C3** (amended).  A commit scope exiting successfully with a nonempty
pending list performs exactly the git commit of the pending paths — the
index update on the success path is commented out in the source — while the
abort path does run the index update with the pending paths as hints. -/
theorem C3_success_exit_amended (fns toDel : List String) (m : Option String)
    (h : ¬ fns = []) :
    commitExitEffects fns m = [Eff.gitCommit fns m] ∧
    (∀ e ∈ commitExitEffects fns m, ¬ e.isIdxUpdate = true) ∧
    Eff.idxUpdate fns ∈ abortEffects fns toDel := by
  refine ⟨by simp [commitExitEffects, h], ?_, ?_⟩
  · intro e he
    simp [commitExitEffects, h] at he
    subst he
    simp [Eff.isIdxUpdate]
  · simp [abortEffects, h]

/-- **C3** (witness). -/
theorem C3_success_exit_amended_witness :
    (¬ (["a.json"] : List String) = []) ∧
    (commitExitEffects ["a.json"] none = [Eff.gitCommit ["a.json"] none] ∧
      (∀ e ∈ commitExitEffects ["a.json"] none, ¬ e.isIdxUpdate = true) ∧
      Eff.idxUpdate ["a.json"] ∈ abortEffects ["a.json"] ["a.json"]) :=
  ⟨by decide, C3_success_exit_amended ["a.json"] ["a.json"] none (by decide)⟩

/-! ## C9: `items` on an empty result set -/

/-- **C9.** On a non-unique index, when the `items` query returns no rows
(empty table, or no row matching the LIKE filter), the final
`yield key, values` reads the never-bound loop variable `key` and raises
`UnboundLocalError`; no empty sequence is yielded. -/
theorem C9_items_empty_error (pat : Option String)
    (tbl : List (Option String × String)) (h : itemsQuery pat tbl = []) :
    itemsRun false pat tbl = .error .unboundLocal := by
  unfold itemsRun
  rw [h]
  rfl

/-- **C9** (witness). -/
theorem C9_items_empty_error_witness :
    itemsQuery (some "al%") [(some "bob", "f.json")] = [] ∧
    itemsRun false (some "al%") [(some "bob", "f.json")]
      = .error .unboundLocal :=
  ⟨rfl, C9_items_empty_error (some "al%") [(some "bob", "f.json")] rfl⟩

/-! ## C10: `__getitem__ None` on a standard index -/

/-- **C10.** For a standard (non-FTS) index, unique or not, and any table
contents, a `None`-key lookup issues `select fn … where value is null`; the
table's columns are `key` and `fn`, so SQLite rejects the statement with a
no-such-column error for `value` and no result is ever returned. -/
theorem C10_none_key_always_errors (unique : Bool)
    (tbl : List (Option String × String)) :
    execSelect tbl (getitemQuery unique none)
      = .error (.noSuchColumn "value") := by
  rfl

/-! ## C5: unique-index key uniqueness -/

theorem keysNodup_delFn (t : Tbl) (fn : String) (h : (t.map Prod.snd).Nodup) :
    ((delFn t fn).map Prod.snd).Nodup :=
  List.Nodup.sublist ((List.filter_sublist t).map Prod.snd) h

theorem keys_renameFn (t : Tbl) (old new : String) :
    (renameFn t old new).map Prod.snd = t.map Prod.snd := by
  induction t with
  | nil => rfl
  | cons r t ih =>
    rw [renameFn_cons, List.map_cons, List.map_cons, ih]
    by_cases h : r.1 = old <;> simp [h]

theorem keysNodup_replaceRow (t : Tbl) (fn k : String)
    (h : (t.map Prod.snd).Nodup) :
    ((replaceRow t fn k).map Prod.snd).Nodup := by
  unfold replaceRow
  rw [List.map_append]
  refine List.Nodup.append
    (List.Nodup.sublist ((List.filter_sublist t).map Prod.snd) h) (by simp) ?_
  intro a ha hb
  simp only [List.map_cons, List.map_nil, List.mem_singleton] at hb
  subst hb
  rcases List.mem_map.mp ha with ⟨r, hr, hrk⟩
  have hpred := List.of_mem_filter hr
  simp only [decide_not, Bool.not_eq_eq_eq_not, Bool.not_true, decide_eq_false_iff_not] at hpred
  exact hpred hrk

theorem keysNodup_insertKeys_true (t : Tbl) (fn : String) (ks : List String)
    (h : (t.map Prod.snd).Nodup) :
    ((insertKeys true t fn ks).map Prod.snd).Nodup := by
  induction ks generalizing t with
  | nil => exact h
  | cons k ks ih =>
    simp only [insertKeys, List.foldl_cons, if_pos rfl] at *
    exact ih (replaceRow t fn k) (keysNodup_replaceRow t fn k h)

theorem keysNodup_applyChange (indexNull : Bool) {Doc : Type} (f : Doc → ProjVal)
    (disk : String → Option Doc) (t : Tbl) (c : Change)
    (h : (t.map Prod.snd).Nodup) :
    ((applyChange true indexNull f disk t c).map Prod.snd).Nodup := by
  obtain ⟨st, fn, other⟩ := c
  unfold applyChange
  dsimp only
  split
  · exact h
  · have h0 : ((renStep t st fn other).map Prod.snd).Nodup := by
      unfold renStep
      split
      · rw [keys_renameFn]; exact h
      · exact h
    have h1 : ((delStep true (renStep t st fn other) st fn).map Prod.snd).Nodup := by
      unfold delStep
      split
      · exact keysNodup_delFn _ _ h0
      · exact h0
    unfold insStep
    split
    · split <;> dsimp only <;> split
      · exact h1
      · exact keysNodup_insertKeys_true _ _ _ h1
      · exact h1
      · exact keysNodup_insertKeys_true _ _ _ h1
    · exact h1

/-- **C5.** For a unique index, every reachable table state maps at most
one file to each key (the key column, the PRIMARY KEY, has no duplicates),
and a later write of a document projecting to an already-present key goes
through `replace into`, which leaves exactly one row for that key — the new
one — rather than adding a second. -/
theorem C5_unique_key_invariant (indexNull : Bool) {Doc : Type}
    (f : Doc → ProjVal) :
    (∀ t : Tbl, ReachU indexNull f t → (t.map Prod.snd).Nodup) ∧
    (∀ (t : Tbl) (fn k : String),
      (replaceRow t fn k).filter (fun r => r.2 = k) = [(fn, k)]) := by
  constructor
  · intro t h
    induction h with
    | init => exact List.nodup_nil
    | step t disk c _ ih => exact keysNodup_applyChange _ _ _ _ _ ih
  · intro t fn k
    unfold replaceRow
    rw [List.filter_append]
    have h1 : (t.filter fun r => ¬ r.2 = k).filter (fun r => r.2 = k) = [] := by
      rw [List.filter_filter]
      refine List.filter_eq_nil_iff.mpr ?_
      intro r _
      simp
    rw [h1]
    simp

/-! ## C8: typed-record round trip -/

theorem jmapLookup_eq_none (o : JMap) (k : String) (h : jmapHas o k = false) :
    jmapLookup o k = none := by
  induction o with
  | nil => rfl
  | cons e o ih =>
    simp only [jmapHas, List.any_cons, Bool.or_eq_false_iff,
      decide_eq_false_iff_not] at h
    unfold jmapLookup
    rw [List.find?_cons_of_neg _ (by simpa using h.1)]
    exact ih h.2

theorem jmapLookup_append_fresh (o : JMap) (k : String) (v : JVal)
    (h : jmapHas o k = false) : jmapLookup (o ++ [(k, v)]) k = some v := by
  induction o with
  | nil => simp [jmapLookup, List.find?]
  | cons e o ih =>
    simp only [jmapHas, List.any_cons, Bool.or_eq_false_iff,
      decide_eq_false_iff_not] at h
    unfold jmapLookup
    rw [List.cons_append, List.find?_cons_of_neg _ (by simpa using h.1)]
    exact ih h.2

theorem jmapLookup_append_other (o : JMap) (k k' : String) (v : JVal)
    (h : jmapHas o k' = false) (hne : ¬ k = k') :
    jmapLookup (o ++ [(k, v)]) k' = none := by
  induction o with
  | nil => simp [jmapLookup, List.find?, hne]
  | cons e o ih =>
    simp only [jmapHas, List.any_cons, Bool.or_eq_false_iff,
      decide_eq_false_iff_not] at h
    unfold jmapLookup
    rw [List.cons_append, List.find?_cons_of_neg _ (by simpa using h.1)]
    exact ih h.2

theorem jmapErase_append_fresh (o : JMap) (k : String) (v : JVal)
    (h : jmapHas o k = false) : jmapErase (o ++ [(k, v)]) k = o := by
  unfold jmapErase
  rw [List.filter_append]
  have h1 : (o.filter fun e => ¬ e.1 = k) = o := by
    refine List.filter_eq_self.mpr ?_
    intro e he
    simp only [jmapHas] at h
    rw [List.any_eq_false] at h
    simpa using h e he
  rw [h1]
  simp

theorem jmapSet_fresh (o : JMap) (k : String) (v : JVal)
    (h : jmapHas o k = false) : jmapSet o k v = o ++ [(k, v)] := by
  unfold jmapSet
  rw [h]
  simp

/-- **C8.** For every registered typed record `r` — a dataclass or named
tuple whose class name is mapped to its constructor in the registry —
decoding the stored encoding returns `r`: `Commit.store` injects the
discriminator field next to the record's fields, and `SHADB.load` strips it
and rebuilds the record with the registered constructor.  The hypotheses
say exactly that `r` is registered (`classes` maps its class name to a
constructor that inverts its field mapping) and that its fields do not
collide with the discriminator keys. -/
theorem C8_typed_roundtrip {Doc : Type} (kind : Doc → RecKind)
    (clsName : Doc → String) (asdict : Doc → JMap)
    (classes : String → Option (JMap → Doc)) (ctor : JMap → Doc) (r : Doc)
    (hreg : classes (clsName r) = some ctor)
    (hctor : ctor (asdict r) = r)
    (hdc : jmapHas (asdict r) "__dataclass__" = false)
    (hnt : jmapHas (asdict r) "__namedtuple__" = false) :
    loadDecode classes (storeEncode kind clsName asdict r) = .ok (.typed r) := by
  unfold storeEncode
  cases hk : kind r with
  | dataclass =>
    rw [jmapSet_fresh _ _ _ hdc]
    unfold loadDecode
    rw [jmapLookup_append_fresh _ _ _ hdc]
    dsimp only [Option.bind]
    rw [hreg, jmapErase_append_fresh _ _ _ hdc]
    dsimp only
    rw [hctor]
  | namedtuple =>
    rw [jmapSet_fresh _ _ _ hnt]
    unfold loadDecode
    rw [jmapLookup_append_other _ _ _ _ hdc (by decide),
      jmapLookup_append_fresh _ _ _ hnt]
    dsimp only [Option.bind]
    rw [hreg, jmapErase_append_fresh _ _ _ hnt]
    dsimp only
    rw [hctor]

/-- **C8** (witness): a concrete one-field dataclass named `User`. -/
theorem C8_typed_roundtrip_witness :
    ((fun n => if n = "User" then some (id : JMap → JMap) else none) "User"
        = some id ∧
      jmapHas [("id", JVal.jstr "1")] "__dataclass__" = false ∧
      jmapHas [("id", JVal.jstr "1")] "__namedtuple__" = false) ∧
    loadDecode (fun n => if n = "User" then some (id : JMap → JMap) else none)
        (storeEncode (fun _ => RecKind.dataclass) (fun _ => "User") id
          [("id", JVal.jstr "1")])
      = .ok (.typed [("id", JVal.jstr "1")]) :=
  ⟨⟨by simp, rfl, rfl⟩,
    C8_typed_roundtrip (fun _ => .dataclass) (fun _ => "User") id
      (fun n => if n = "User" then some id else none) id [("id", JVal.jstr "1")]
      (by simp) rfl rfl rfl⟩

/-! ## C7: the FTS query rewriter -/

theorem qtail_clean (cs : List Char) (rest : List Char) (fuel : Nat)
    (hf : cs.length < fuel) (hc : ∀ c ∈ cs, ¬ c = '"' ∧ ¬ c = '\\') :
    qtail fuel (cs ++ '"' :: rest) = some (cs ++ ['"'], rest) := by
  induction cs generalizing fuel with
  | nil =>
    cases fuel with
    | zero => exact absurd hf (lt_irrefl 0)
    | succ n => simp [qtail]
  | cons c cs ih =>
    cases fuel with
    | zero => exact absurd hf (Nat.not_lt_zero _)
    | succ n =>
      have hc1 := hc c (List.mem_cons_self c cs)
      have hcs : ∀ c' ∈ cs, ¬ c' = '"' ∧ ¬ c' = '\\' :=
        fun c' h' => hc c' (List.mem_cons_of_mem c h')
      have hlen : cs.length < n := by
        simpa using Nat.lt_of_succ_lt_succ hf
      rw [List.cons_append]
      unfold qtail
      rw [if_neg hc1.1, if_neg hc1.2, ih n hlen hcs]
      simp

theorem matchUnits_nil (fuel : Nat) : matchUnits fuel [] = ([], []) := by
  cases fuel with
  | zero => rfl
  | succ n => simp [matchUnits, matchUnit]

theorem findTokens_nil (fuel : Nat) : findTokens fuel [] = [] := by
  cases fuel with
  | zero => rfl
  | succ n => rfl

theorem matchUnit_quote (fuel : Nat) (rest : List Char) :
    matchUnit fuel ('"' :: rest)
      = match qtail fuel rest with
        | some (con, r) => some ('"' :: con, r)
        | none => none := rfl

theorem findTokens_cons (fuel : Nat) (c : Char) (rest : List Char) :
    findTokens (fuel + 1) (c :: rest)
      = match matchUnits (fuel + 1) (c :: rest) with
        | ([], _) => findTokens fuel rest
        | (con, rest2) => con :: findTokens fuel rest2 := rfl

theorem matchUnits_quoted (cs : List Char) (fuel : Nat)
    (hf : cs.length + 1 < fuel) (hc : ∀ c ∈ cs, ¬ c = '"' ∧ ¬ c = '\\') :
    matchUnits fuel ('"' :: (cs ++ ['"'])) = ('"' :: (cs ++ ['"']), []) := by
  cases fuel with
  | zero => exact absurd hf (Nat.not_lt_zero _)
  | succ n =>
    have hq : qtail n (cs ++ '"' :: []) = some (cs ++ ['"'], []) :=
      qtail_clean cs [] n (by omega) hc
    unfold matchUnits
    rw [matchUnit_quote, hq]
    simp [matchUnits_nil]

/-- **C7.** The rewriter is the pipeline the spec describes: it tokenizes
respecting double-quoted substrings (a quoted substring forms a single
token), upper-cases the bare operator words `and` / `or` / `not`
case-insensitively, wraps any token containing a dash or slash in double
quotes, and joins the resulting tokens with single spaces.  Two concrete
runs exercise the whole pipeline. -/
theorem C7_fts_rewriter :
    (∀ key : String, ftsRewrite key
        = String.intercalate " " (((ftsTokens key).map opCase).map quoteWrap)) ∧
    (∀ cs : List Char, (∀ c ∈ cs, ¬ c = '"' ∧ ¬ c = '\\') →
      ftsTokens (String.mk ('"' :: (cs ++ ['"'])))
        = [String.mk ('"' :: (cs ++ ['"']))]) ∧
    (∀ t : String, (pyLower t ∈ cmdWords → opCase t = pyUpper t) ∧
      (pyLower t ∉ cmdWords → opCase t = t)) ∧
    (∀ t : String, (hasDashSlash t = true →
        quoteWrap t = "\"" ++ stripQuotes t ++ "\"") ∧
      (hasDashSlash t = false → quoteWrap t = t)) ∧
    ftsRewrite "consectetur and derek" = "consectetur AND derek" ∧
    ftsRewrite "2010-10-01" = "\"2010-10-01\"" := by
  refine ⟨fun _ => rfl, ?_, ?_, ?_, by rfl, by rfl⟩
  · intro cs hc
    unfold ftsTokens
    have hlist : (String.mk ('"' :: (cs ++ ['"']))).toList = '"' :: (cs ++ ['"']) := rfl
    rw [hlist]
    have hlen : ('"' :: (cs ++ ['"'])).length = cs.length + 2 := by simp
    rw [hlen, findTokens_cons, matchUnits_quoted cs (cs.length + 2 + 1) (by omega) hc]
    simp [findTokens_nil]
  · intro t
    exact ⟨fun h => if_pos h, fun h => if_neg h⟩
  · intro t
    constructor
    · intro h
      simp [quoteWrap, h]
    · intro h
      simp [quoteWrap, h]

/-! ## C1: commit-scope abort -/

theorem delFn_eq_self (t : Tbl) (x : String) (h : rowsFor t x = []) :
    delFn t x = t := by
  induction t with
  | nil => rfl
  | cons r t ih =>
    rw [rowsFor_cons] at h
    rcases List.append_eq_nil.mp h with ⟨h1, h2⟩
    have hr : ¬ r.1 = x := by
      intro he
      simp [he] at h1
    rw [delFn_cons, if_neg hr, ih h2]
    simp

theorem keyFilter_eq_self (t : Tbl) (k : String)
    (h : ∀ r ∈ t, ¬ r.2 = k) :
    (t.filter fun r => ¬ r.2 = k) = t := by
  refine List.filter_eq_self.mpr ?_
  intro r hr
  simpa using h r hr

theorem insertKeys_false_eq (t : Tbl) (fn : String) (ks : List String) :
    insertKeys false t fn ks = t ++ ks.map fun k => (fn, k) := by
  induction ks generalizing t with
  | nil => simp [insertKeys]
  | cons k ks ih =>
    rw [insertKeys_false_cons, ih]
    simp [insertRow]

theorem insertKeys_true_append (t0 extra : Tbl) (fn : String) (ks : List String)
    (hk : ∀ k ∈ ks, ∀ r ∈ t0, ¬ r.2 = k) :
    ∃ e2, insertKeys true (t0 ++ extra) fn ks = t0 ++ e2 ∧
      ∀ r ∈ e2, r.1 = fn ∨ r ∈ extra := by
  induction ks generalizing extra with
  | nil => exact ⟨extra, rfl, fun r hr => Or.inr hr⟩
  | cons k ks ih =>
    have hstep : replaceRow (t0 ++ extra) fn k
        = t0 ++ ((extra.filter fun r => ¬ r.2 = k) ++ [(fn, k)]) := by
      unfold replaceRow
      rw [List.filter_append,
        keyFilter_eq_self t0 k (fun r hr => hk k (List.mem_cons_self k ks) r hr)]
      simp
    have hrec := ih ((extra.filter fun r => ¬ r.2 = k) ++ [(fn, k)])
      (fun k' hk' r hr => hk k' (List.mem_cons_of_mem k hk') r hr)
    rcases hrec with ⟨e2, he2, hmem⟩
    refine ⟨e2, ?_, ?_⟩
    · simp only [insertKeys, List.foldl_cons, if_pos rfl] at *
      rw [hstep] at *
      exact he2
    · intro r hr
      rcases hmem r hr with h | h
      · exact Or.inl h
      · rcases List.mem_append.mp h with h | h
        · exact Or.inr (List.mem_of_mem_filter h)
        · simp only [List.mem_singleton] at h
          subst h
          exact Or.inl rfl

theorem applyChange_alsoM (unique indexNull : Bool) {Doc : Type}
    (f : Doc → ProjVal) (disk : String → Option Doc) (t : Tbl) (x : String)
    (d : Doc) (hj : endsWithJson x = true) (hd : disk x = some d) :
    applyChange unique indexNull f disk t (DStat.M, x, [])
      = insertKeys unique (if unique then t else delFn t x) x
          (emittedKeys indexNull (f d)) := by
  cases unique <;>
    simp [applyChange, renStep, delStep, delCond, insStep, insCond,
      DStat.isRen, hj, hd]

theorem applyChange_alsoD (unique indexNull : Bool) {Doc : Type}
    (f : Doc → ProjVal) (disk : String → Option Doc) (t : Tbl) (x : String)
    (hj : endsWithJson x = true) :
    applyChange unique indexNull f disk t (DStat.D, x, []) = delFn t x := by
  simp [applyChange, renStep, delStep, delCond, insStep, insCond,
    DStat.isRen, hj]

theorem updateAlso_cons (unique indexNull : Bool) {Doc : Type}
    (f : Doc → ProjVal) (disk : String → Option Doc) (t : Tbl) (x : String)
    (fns : List String) :
    updateAlso unique indexNull f disk t (x :: fns)
      = updateAlso unique indexNull f disk
          (applyChange unique indexNull f disk t
            (if (disk x).isSome then DStat.M else DStat.D, x, [])) fns := by
  simp [updateAlso, updateRows, alsoChanges]

/-- During a scope the update on a batch of freshly dumped files only adds
and replaces rows for those files: the pre-scope rows survive untouched. -/
theorem updateAlso_scope_batch (unique indexNull : Bool) {Doc : Type}
    (f : Doc → ProjVal) (disk : String → Option Doc) (t0 : Tbl)
    (Qbig : List String) :
    ∀ (fns : List String) (extra : Tbl),
    (∀ x ∈ fns, endsWithJson x = true) →
    (∀ x ∈ fns, ∃ d, disk x = some d ∧ (unique = true →
      ∀ k ∈ emittedKeys indexNull (f d), ∀ r ∈ t0, ¬ r.2 = k)) →
    (∀ x ∈ fns, rowsFor t0 x = []) →
    (∀ x ∈ fns, x ∈ Qbig) →
    (∀ r ∈ extra, r.1 ∈ Qbig) →
    ∃ e2, updateAlso unique indexNull f disk (t0 ++ extra) fns = t0 ++ e2 ∧
      ∀ r ∈ e2, r.1 ∈ Qbig := by
  intro fns
  induction fns with
  | nil =>
    intro extra _ _ _ _ hextra
    exact ⟨extra, rfl, hextra⟩
  | cons x fns ih =>
    intro extra hjson hdisk hrows hQ hextra
    have hxj := hjson x (List.mem_cons_self x fns)
    rcases hdisk x (List.mem_cons_self x fns) with ⟨d, hd, hkd⟩
    have hxr := hrows x (List.mem_cons_self x fns)
    rw [updateAlso_cons, hd]
    simp only [Option.isSome_some, if_true]
    rw [applyChange_alsoM unique indexNull f disk _ x d hxj hd]
    cases unique with
    | false =>
      rw [if_neg (by simp)]
      rw [delFn_append, delFn_eq_self t0 x hxr, insertKeys_false_eq]
      rw [List.append_assoc]
      refine ih ((delFn extra x) ++
        (emittedKeys indexNull (f d)).map (fun k => (x, k)))
        (fun y hy => hjson y (List.mem_cons_of_mem x hy))
        (fun y hy => hdisk y (List.mem_cons_of_mem x hy))
        (fun y hy => hrows y (List.mem_cons_of_mem x hy))
        (fun y hy => hQ y (List.mem_cons_of_mem x hy))
        ?_
      intro r hr
      rcases List.mem_append.mp hr with h | h
      · exact hextra r (List.mem_of_mem_filter h)
      · rcases List.mem_map.mp h with ⟨k, _, hk⟩
        rw [← hk]
        exact hQ x (List.mem_cons_self x fns)
    | true =>
      rw [if_pos rfl]
      rcases insertKeys_true_append t0 extra x (emittedKeys indexNull (f d))
        (fun k hk r hr => hkd rfl k hk r hr) with ⟨e1, he1, hm1⟩
      rw [he1]
      refine ih e1
        (fun y hy => hjson y (List.mem_cons_of_mem x hy))
        (fun y hy => hdisk y (List.mem_cons_of_mem x hy))
        (fun y hy => hrows y (List.mem_cons_of_mem x hy))
        (fun y hy => hQ y (List.mem_cons_of_mem x hy))
        ?_
      intro r hr
      rcases hm1 r hr with h | h
      · rw [h]
        exact hQ x (List.mem_cons_self x fns)
      · exact hextra r h

/-- The abort-path update with every pending file unlinked deletes exactly
the rows the scope added. -/
theorem updateAlso_all_deleted (unique indexNull : Bool) {Doc : Type}
    (f : Doc → ProjVal) (disk : String → Option Doc) (t0 : Tbl) :
    ∀ (fns : List String) (extra : Tbl),
    (∀ x ∈ fns, endsWithJson x = true) →
    (∀ x ∈ fns, disk x = none) →
    (∀ x ∈ fns, rowsFor t0 x = []) →
    (∀ r ∈ extra, r.1 ∈ fns) →
    updateAlso unique indexNull f disk (t0 ++ extra) fns = t0 := by
  intro fns
  induction fns with
  | nil =>
    intro extra _ _ _ hextra
    have : extra = [] := by
      cases extra with
      | nil => rfl
      | cons r extra => exact absurd (hextra r (List.mem_cons_self r extra)) (by simp)
    rw [this]
    simp [updateAlso, updateRows, alsoChanges]
  | cons x fns ih =>
    intro extra hjson hdisk hrows hextra
    have hxj := hjson x (List.mem_cons_self x fns)
    have hxd := hdisk x (List.mem_cons_self x fns)
    have hxr := hrows x (List.mem_cons_self x fns)
    rw [updateAlso_cons, hxd]
    simp only [Option.isSome_none, Bool.false_eq_true, if_false]
    rw [applyChange_alsoD unique indexNull f disk _ x hxj]
    rw [delFn_append, delFn_eq_self t0 x hxr]
    refine ih (delFn extra x)
      (fun y hy => hjson y (List.mem_cons_of_mem x hy))
      (fun y hy => hdisk y (List.mem_cons_of_mem x hy))
      (fun y hy => hrows y (List.mem_cons_of_mem x hy))
      ?_
    intro r hr
    have hrx : ¬ r.1 = x := by
      have := List.of_mem_filter hr
      simpa using this
    rcases hextra r (List.mem_of_mem_filter hr) with h
    rcases List.mem_cons.mp h with h | h
    · exact absurd h hrx
    · exact h

/-- The dump loop of `Commit.store` on a batch of pairwise-distinct fresh
paths: files outside the batch are untouched in both the working tree and
the staging area, and each batch path ends up on disk and staged with the
same stored document (fresh, so `git add` runs exactly once per path). -/
theorem dumps_spec {Doc : Type} :
    ∀ (ws : List (String × Doc)) (st : ScState Doc),
    (ws.map Prod.fst).Nodup →
    (∀ x ∈ ws.map Prod.fst, st.disk x = none) →
    (ws.foldl (fun s w => dumpFile s w.1 w.2) st).head = st.head ∧
    (ws.foldl (fun s w => dumpFile s w.1 w.2) st).pending = st.pending ∧
    (ws.foldl (fun s w => dumpFile s w.1 w.2) st).tbl = st.tbl ∧
    (∀ x, ¬ x ∈ ws.map Prod.fst →
      (ws.foldl (fun s w => dumpFile s w.1 w.2) st).disk x = st.disk x ∧
      (ws.foldl (fun s w => dumpFile s w.1 w.2) st).gitIndex x
        = st.gitIndex x) ∧
    (∀ x ∈ ws.map Prod.fst, ∃ d, (x, d) ∈ ws ∧
      (ws.foldl (fun s w => dumpFile s w.1 w.2) st).disk x = some d ∧
      (ws.foldl (fun s w => dumpFile s w.1 w.2) st).gitIndex x = some d) := by
  intro ws
  induction ws with
  | nil =>
    intro st _ _
    exact ⟨rfl, rfl, rfl, fun x _ => ⟨rfl, rfl⟩,
      fun x hx => absurd hx (by simp)⟩
  | cons w ws ih =>
    intro st hnd hfresh
    have hw1 : st.disk w.1 = none := hfresh w.1 (by simp)
    have hstep_disk : ∀ x, (dumpFile st w.1 w.2).disk x
        = if x = w.1 then some w.2 else st.disk x := fun x => rfl
    have hstep_idx : ∀ x, (dumpFile st w.1 w.2).gitIndex x
        = if x = w.1 then some w.2 else st.gitIndex x := by
      intro x
      unfold dumpFile
      dsimp only
      rw [hw1]
      rfl
    have hnd' : (w.1 :: ws.map Prod.fst).Nodup := by
      rw [List.map_cons] at hnd
      exact hnd
    rcases List.nodup_cons.mp hnd' with ⟨hw_notin, hnd2⟩
    have hfresh2 : ∀ x ∈ ws.map Prod.fst, (dumpFile st w.1 w.2).disk x = none := by
      intro x hx
      rw [hstep_disk x, if_neg (fun he => hw_notin (by rw [← he]; exact hx))]
      exact hfresh x (by simp [hx])
    rcases ih (dumpFile st w.1 w.2) hnd2 hfresh2 with ⟨ha, hb, hc, hd, he⟩
    refine ⟨ha, hb, hc, ?_, ?_⟩
    · intro x hx
      have hx' : ¬ x ∈ ws.map Prod.fst ∧ ¬ x = w.1 := by
        simp only [List.map_cons, List.mem_cons, not_or] at hx
        exact ⟨hx.2, hx.1⟩
      rw [List.foldl_cons]
      rcases hd x hx'.1 with ⟨hdd, hdi⟩
      exact ⟨by rw [hdd, hstep_disk x, if_neg hx'.2],
        by rw [hdi, hstep_idx x, if_neg hx'.2]⟩
    · intro x hx
      simp only [List.map_cons, List.mem_cons] at hx
      by_cases hxs : x ∈ ws.map Prod.fst
      · rcases he x hxs with ⟨d, hdm, hds, hdi⟩
        exact ⟨d, List.mem_cons_of_mem w hdm,
          by rw [List.foldl_cons]; exact hds,
          by rw [List.foldl_cons]; exact hdi⟩
      · have hxw : x = w.1 := by
          rcases hx with h | h
          · exact h
          · exact absurd h hxs
        subst hxw
        rcases hd w.1 hxs with ⟨hdd, hdi⟩
        refine ⟨w.2, by simp, ?_, ?_⟩
        · rw [List.foldl_cons, hdd, hstep_disk w.1, if_pos rfl]
        · rw [List.foldl_cons, hdi, hstep_idx w.1, if_pos rfl]

/-- One `store` call preserves the scope invariant, extending the pending
list by the batch's paths, provided the batch paths are fresh, pairwise
distinct, not yet pending, and — for a unique index — emit no key already
present in the pre-scope table. -/
theorem commitStore_inv (unique indexNull : Bool) {Doc : Type}
    (f : Doc → ProjVal) (st0 st : ScState Doc) (Q : List String)
    (ws : List (String × Doc)) (hInv : scopeInv st0 st Q)
    (hWnodup : (ws.map Prod.fst).Nodup)
    (hWnew : ∀ x ∈ ws.map Prod.fst, ¬ x ∈ Q)
    (hws : ∀ w ∈ ws, st0.disk w.1 = none ∧ endsWithJson w.1 = true ∧
      rowsFor st0.tbl w.1 = [] ∧
      (unique = true →
        ∀ k ∈ emittedKeys indexNull (f w.2), ∀ r ∈ st0.tbl, ¬ r.2 = k)) :
    scopeInv st0 (commitStore unique indexNull f st ws)
      (Q ++ ws.map Prod.fst) := by
  obtain ⟨hhead, hpend, hgidx, hdisk, hsome, hstageq, extra, htbl, hextra⟩ := hInv
  have hmemw : ∀ x ∈ ws.map Prod.fst, ∃ d, (x, d) ∈ ws := by
    intro x hx
    rcases List.mem_map.mp hx with ⟨w, hw, hwx⟩
    exact ⟨w.2, by rwa [show (x, w.2) = w from by rw [← hwx]]⟩
  have hfresh : ∀ x ∈ ws.map Prod.fst, st.disk x = none := by
    intro x hx
    rcases hmemw x hx with ⟨d, hwmem⟩
    rw [hdisk x (hWnew x hx), (hws (x, d) hwmem).1]
  rcases dumps_spec ws st hWnodup hfresh with ⟨ha, hb, hc, hd, he⟩
  unfold commitStore
  refine ⟨by dsimp only; rw [ha, hhead], by dsimp only; rw [hb, hpend],
    ?_, ?_, ?_, ?_, ?_⟩
  · intro x hx
    simp only [List.mem_append, not_or] at hx
    dsimp only
    rw [(hd x hx.2).2, hgidx x hx.1]
  · intro x hx
    simp only [List.mem_append, not_or] at hx
    dsimp only
    rw [(hd x hx.2).1, hdisk x hx.1]
  · intro x hx
    dsimp only
    rcases List.mem_append.mp hx with h | h
    · have hxw : ¬ x ∈ ws.map Prod.fst := fun hh => hWnew x hh h
      rw [(hd x hxw).1]
      exact hsome x h
    · rcases he x h with ⟨d, _, hds, _⟩
      rw [hds]
      rfl
  · intro x hx
    dsimp only
    rcases List.mem_append.mp hx with h | h
    · have hxw : ¬ x ∈ ws.map Prod.fst := fun hh => hWnew x hh h
      rw [(hd x hxw).1, (hd x hxw).2]
      exact hstageq x h
    · rcases he x h with ⟨d, _, hds, hdi⟩
      rw [hds, hdi]
  · dsimp only
    rw [hc, htbl]
    have hbatch := updateAlso_scope_batch unique indexNull f
      (ws.foldl (fun s w => dumpFile s w.1 w.2) st).disk st0.tbl
      (Q ++ ws.map Prod.fst) (ws.map Prod.fst) extra
      ?_ ?_ ?_ ?_ ?_
    · rcases hbatch with ⟨e2, he2, hm2⟩
      exact ⟨e2, he2, hm2⟩
    · intro x hx
      rcases hmemw x hx with ⟨d, hwmem⟩
      exact (hws (x, d) hwmem).2.1
    · intro x hx
      rcases he x hx with ⟨d, hdm, hds, _⟩
      exact ⟨d, hds, (hws (x, d) hdm).2.2.2⟩
    · intro x hx
      rcases hmemw x hx with ⟨d, hwmem⟩
      exact (hws (x, d) hwmem).2.2.1
    · intro x hx
      exact List.mem_append_right Q hx
    · intro r hr
      exact List.mem_append_left _ (hextra r hr)

/-- Folding `commitStore` over the scope's store calls preserves the
invariant when the scope's stored paths are pairwise distinct and disjoint
from the paths already pending. -/
theorem runScope_inv (unique indexNull : Bool) {Doc : Type}
    (f : Doc → ProjVal) (st0 : ScState Doc) :
    ∀ (calls : List (List (String × Doc))) (st : ScState Doc) (Q : List String),
    scopeInv st0 st Q →
    ((calls.flatten).map Prod.fst).Nodup →
    (∀ x ∈ (calls.flatten).map Prod.fst, ¬ x ∈ Q) →
    (∀ w ∈ calls.flatten, st0.disk w.1 = none ∧ endsWithJson w.1 = true ∧
      rowsFor st0.tbl w.1 = [] ∧
      (unique = true →
        ∀ k ∈ emittedKeys indexNull (f w.2), ∀ r ∈ st0.tbl, ¬ r.2 = k)) →
    scopeInv st0 (runScope unique indexNull f st calls)
      (Q ++ (calls.flatten).map Prod.fst) := by
  intro calls
  induction calls with
  | nil =>
    intro st Q hInv _ _ _
    simpa [runScope] using hInv
  | cons ws calls ih =>
    intro st Q hInv hnd hdisj hcalls
    have hsplit : (ws.map Prod.fst ++ (calls.flatten).map Prod.fst).Nodup := by
      simpa [List.flatten_cons] using hnd
    rcases List.nodup_append.mp hsplit with ⟨hnd1, hnd2, hcrossdisj⟩
    have h1 := commitStore_inv unique indexNull f st0 st Q ws hInv hnd1
      (fun x hx => hdisj x (by
        rw [List.flatten_cons, List.map_append]
        exact List.mem_append_left _ hx))
      (fun w hw => hcalls w
        (by rw [List.flatten_cons]; exact List.mem_append_left _ hw))
    have h2 := ih (commitStore unique indexNull f st ws) (Q ++ ws.map Prod.fst)
      h1 hnd2
      (fun x hx hmem => by
        rcases List.mem_append.mp hmem with h | h
        · exact hdisj x (by
            rw [List.flatten_cons, List.map_append]
            exact List.mem_append_right _ hx) h
        · exact hcrossdisj h hx)
      (fun w hw => hcalls w
        (by rw [List.flatten_cons]; exact List.mem_append_right _ hw))
    simpa [runScope, List.flatten_cons, List.append_assoc] using h2

/-! ## C4: the catch-up invariant of `Index.update` -/

theorem applyChange_nonjson (unique indexNull : Bool) {Doc : Type}
    (f : Doc → ProjVal) (disk : String → Option Doc) (t : Tbl) (c : Change)
    (h : endsWithJson c.2.1 = false) :
    applyChange unique indexNull f disk t c = t := by
  obtain ⟨st, fn, other⟩ := c
  simp only [applyChange]
  rw [if_pos (by simp_all)]

theorem applyChange_A_some (indexNull : Bool) {Doc : Type} (f : Doc → ProjVal)
    (disk : String → Option Doc) (t : Tbl) (fn : String) (other : List String)
    (d : Doc) (hj : endsWithJson fn = true) (hd : disk fn = some d) :
    applyChange false indexNull f disk t (DStat.A, fn, other)
      = insertKeys false t fn (emittedKeys indexNull (f d)) := by
  simp [applyChange, renStep, delStep, delCond, insStep, insCond,
    DStat.isRen, hj, hd]

theorem applyChange_C_some (indexNull : Bool) {Doc : Type} (f : Doc → ProjVal)
    (disk : String → Option Doc) (t : Tbl) (fn : String) (other : List String)
    (d : Doc) (hj : endsWithJson fn = true) (hd : disk fn = some d) :
    applyChange false indexNull f disk t (DStat.C, fn, other)
      = insertKeys false t fn (emittedKeys indexNull (f d)) := by
  simp [applyChange, renStep, delStep, delCond, insStep, insCond,
    DStat.isRen, hj, hd]

theorem applyChange_M_some (indexNull : Bool) {Doc : Type} (f : Doc → ProjVal)
    (disk : String → Option Doc) (t : Tbl) (fn : String) (other : List String)
    (d : Doc) (hj : endsWithJson fn = true) (hd : disk fn = some d) :
    applyChange false indexNull f disk t (DStat.M, fn, other)
      = insertKeys false (delFn t fn) fn (emittedKeys indexNull (f d)) := by
  simp [applyChange, renStep, delStep, delCond, insStep, insCond,
    DStat.isRen, hj, hd]

theorem applyChange_D (unique indexNull : Bool) {Doc : Type}
    (f : Doc → ProjVal) (disk : String → Option Doc) (t : Tbl) (fn : String)
    (other : List String) (hj : endsWithJson fn = true) :
    applyChange unique indexNull f disk t (DStat.D, fn, other) = delFn t fn := by
  simp [applyChange, renStep, delStep, delCond, insStep, insCond,
    DStat.isRen, hj]

theorem applyChange_R100 (unique indexNull : Bool) {Doc : Type}
    (f : Doc → ProjVal) (disk : String → Option Doc) (t : Tbl)
    (fn : String) (other : List String) (hj : endsWithJson fn = true) :
    applyChange unique indexNull f disk t (DStat.R 100, fn, other)
      = renameFn t fn (other.headD "") := by
  simp [applyChange, renStep, delStep, delCond, insStep, insCond,
    DStat.isRen, hj]

theorem applyChange_Rn_some (indexNull : Bool) {Doc : Type}
    (f : Doc → ProjVal) (disk : String → Option Doc) (t : Tbl) (n : Nat)
    (fn : String) (other : List String) (d : Doc) (hn : ¬ n = 100)
    (hj : endsWithJson fn = true) (hd : disk (other.headD "") = some d) :
    applyChange false indexNull f disk t (DStat.R n, fn, other)
      = insertKeys false (delFn t fn) (other.headD "")
          (emittedKeys indexNull (f d)) := by
  have hd' : disk (other.head?.getD "") = some d := by
    simpa [List.headD_eq_head?_getD] using hd
  simp [applyChange, renStep, delStep, delCond, insStep, insCond,
    DStat.isRen, hj, hd', hn]

/-- A change never moves the rows of a path it does not affect
(non-unique index: inserts are plain `insert`, never `replace`). -/
theorem applyChange_frame (indexNull : Bool) {Doc : Type}
    (f : Doc → ProjVal) (disk : String → Option Doc) (t : Tbl) (c : Change)
    (y : String) (hy : ¬ touches c y) :
    rowsFor (applyChange false indexNull f disk t c) y = rowsFor t y := by
  obtain ⟨st, fn, other⟩ := c
  have hyfn : ¬ y = fn := fun h => hy (Or.inl h)
  simp only [applyChange]
  split
  · rfl
  · have h1 : rowsFor (renStep t st fn other) y = rowsFor t y := by
      unfold renStep
      split
      · next hr =>
        refine rowsFor_renameFn_other t fn (other.headD "") y hyfn ?_
        intro h
        exact hy (Or.inr ⟨by rw [hr]; rfl, h⟩)
      · rfl
    have h2 : rowsFor (delStep false (renStep t st fn other) st fn) y
        = rowsFor t y := by
      unfold delStep
      split
      · rw [rowsFor_delFn, if_neg hyfn, h1]
      · exact h1
    unfold insStep
    split
    · split
      · next hr =>
        have hynew : ¬ y = other.headD "" := fun h => hy (Or.inr ⟨hr, h⟩)
        dsimp only
        split
        · exact h2
        · rw [rowsFor_insertKeys_false_other _ _ _ _ hynew]
          exact h2
      · dsimp only
        split
        · exact h2
        · rw [rowsFor_insertKeys_false_other _ _ _ _ hyfn]
          exact h2
    · exact h2

/-- The master catch-up induction: if every change, run on a table that is
still `source`-consistent on the paths it affects, rewrites exactly those
paths to their `target` rows and leaves everything else alone, then folding
a pairwise-disjoint change list over a table that is `target`-consistent on
untouched paths and `source`-consistent on touched ones yields a fully
`target`-consistent table. -/
theorem foldl_changes_spec (indexNull : Bool) {Doc : Type} (f : Doc → ProjVal)
    (disk : String → Option Doc) (source target : String → List String) :
    ∀ (cs : List Change) (t : Tbl),
    List.Pairwise touchDisjoint cs →
    (∀ c ∈ cs, ∀ t', (∀ y, touches c y → rowsFor t' y = source y) →
      ∀ y, rowsFor (applyChange false indexNull f disk t' c) y
        = if touches c y then target y else rowsFor t' y) →
    (∀ y, (∀ c ∈ cs, ¬ touches c y) → rowsFor t y = target y) →
    (∀ y, ¬ (∀ c ∈ cs, ¬ touches c y) → rowsFor t y = source y) →
    ∀ y, rowsFor (cs.foldl (applyChange false indexNull f disk) t) y
      = target y := by
  intro cs
  induction cs with
  | nil =>
    intro t _ _ hUn _ y
    exact hUn y (fun c hc => absurd hc (by simp))
  | cons c cs ih =>
    intro t hpair hstep hUn hTo y
    rw [List.foldl_cons]
    rcases List.pairwise_cons.mp hpair with ⟨hcdisj, hpair2⟩
    have hc0 := hstep c (List.mem_cons_self c cs)
    have hpre : ∀ z, touches c z → rowsFor t z = source z := by
      intro z hz
      refine hTo z ?_
      intro hall
      exact hall c (List.mem_cons_self c cs) hz
    have happ := hc0 t hpre
    refine ih (applyChange false indexNull f disk t c) hpair2
      (fun c' hc' => hstep c' (List.mem_cons_of_mem c hc')) ?_ ?_ y
    · intro z hz
      rw [happ z]
      by_cases htz : touches c z
      · rw [if_pos htz]
      · rw [if_neg htz]
        exact hUn z (fun c' hc' => by
          rcases List.mem_cons.mp hc' with h | h
          · rw [h]; exact htz
          · exact hz c' h)
    · intro z hz
      have htz : ¬ touches c z := by
        intro htc
        refine hz ?_
        intro c' hc'
        exact fun htc' => hcdisj c' hc' z ⟨htc, htc'⟩
      rw [happ z, if_neg htz]
      refine hTo z ?_
      intro hall
      refine hz ?_
      intro c' hc'
      exact hall c' (List.mem_cons_of_mem c hc')

theorem touches_nonren (st : DStat) (fn : String) (other : List String)
    (y : String) (h : st.isRen = false) :
    touches (st, fn, other) y ↔ y = fn := by
  simp [touches, h]

theorem expectedRows_congr (indexNull : Bool) {Doc : Type} (f : Doc → ProjVal)
    (T1 T2 : String → Option Doc) (y : String) (h : T1 y = T2 y) :
    expectedRows indexNull f T1 y = expectedRows indexNull f T2 y := by
  unfold expectedRows
  rw [h]

theorem expectedRows_json_some (indexNull : Bool) {Doc : Type}
    (f : Doc → ProjVal) (T : String → Option Doc) (y : String) (d : Doc)
    (hj : endsWithJson y = true) (hd : T y = some d) :
    expectedRows indexNull f T y = emittedKeys indexNull (f d) := by
  unfold expectedRows
  rw [if_pos hj, hd]

theorem expectedRows_json_none (indexNull : Bool) {Doc : Type}
    (f : Doc → ProjVal) (T : String → Option Doc) (y : String)
    (hd : T y = none) :
    expectedRows indexNull f T y = [] := by
  unfold expectedRows
  rw [hd]
  split <;> rfl

theorem expectedRows_nonjson (indexNull : Bool) {Doc : Type}
    (f : Doc → ProjVal) (T : String → Option Doc) (y : String)
    (hj : endsWithJson y = false) :
    expectedRows indexNull f T y = [] := by
  unfold expectedRows
  rw [hj]
  rfl

/-- One well-formed diff line, applied to a table that still carries the
last-indexed rows for the paths it affects, rewrites exactly those paths to
their HEAD rows. -/
theorem diffChange_step (indexNull : Bool) {Doc : Type} (f : Doc → ProjVal)
    (lastT headT disk : String → Option Doc) (alsoFns : List String)
    (c : Change) (hOK : ChangeOK lastT headT c)
    (hdisk : ∀ z, touches c z → disk z = headT z)
    (hnotalso : ∀ z, touches c z → ¬ z ∈ alsoFns) :
    ∀ t', (∀ y, touches c y → rowsFor t' y = expectedRows indexNull f lastT y) →
    ∀ y, rowsFor (applyChange false indexNull f disk t' c) y
      = if touches c y then
          expectedRows indexNull f (effTree disk headT alsoFns) y
        else rowsFor t' y := by
  intro t' hpre y
  have hEff : ∀ z, touches c z →
      effTree disk headT alsoFns z = headT z := by
    intro z hz
    unfold effTree
    rw [if_neg (hnotalso z hz)]
  by_cases hty : touches c y
  case neg =>
    rw [if_neg hty]
    exact applyChange_frame indexNull f disk t' c y hty
  case pos =>
  rw [if_pos hty]
  obtain ⟨st, fn, other⟩ := c
  cases st with
  | A =>
    have htf : touches (DStat.A, fn, other) fn := Or.inl rfl
    rw [(touches_nonren DStat.A fn other y rfl).mp hty]
    by_cases hj : endsWithJson fn
    · rcases Option.isSome_iff_exists.mp hOK.2 with ⟨d, hd⟩
      have hdk : disk fn = some d := by rw [hdisk fn htf, hd]
      rw [applyChange_A_some indexNull f disk t' fn other d hj hdk,
        rowsFor_insertKeys_false_self, hpre fn htf,
        expectedRows_json_none indexNull f lastT fn hOK.1,
        expectedRows_json_some indexNull f _ fn d hj (by rw [hEff fn htf, hd])]
      rfl
    · rw [applyChange_nonjson false indexNull f disk t'
          (DStat.A, fn, other) (by simpa using hj),
        hpre fn htf, expectedRows_nonjson _ _ _ _ (by simpa using hj),
        expectedRows_nonjson _ _ _ _ (by simpa using hj)]
  | C =>
    have htf : touches (DStat.C, fn, other) fn := Or.inl rfl
    rw [(touches_nonren DStat.C fn other y rfl).mp hty]
    by_cases hj : endsWithJson fn
    · rcases Option.isSome_iff_exists.mp hOK.2 with ⟨d, hd⟩
      have hdk : disk fn = some d := by rw [hdisk fn htf, hd]
      rw [applyChange_C_some indexNull f disk t' fn other d hj hdk,
        rowsFor_insertKeys_false_self, hpre fn htf,
        expectedRows_json_none indexNull f lastT fn hOK.1,
        expectedRows_json_some indexNull f _ fn d hj (by rw [hEff fn htf, hd])]
      rfl
    · rw [applyChange_nonjson false indexNull f disk t'
          (DStat.C, fn, other) (by simpa using hj),
        hpre fn htf, expectedRows_nonjson _ _ _ _ (by simpa using hj),
        expectedRows_nonjson _ _ _ _ (by simpa using hj)]
  | M =>
    have htf : touches (DStat.M, fn, other) fn := Or.inl rfl
    rw [(touches_nonren DStat.M fn other y rfl).mp hty]
    by_cases hj : endsWithJson fn
    · rcases Option.isSome_iff_exists.mp hOK.2 with ⟨d, hd⟩
      have hdk : disk fn = some d := by rw [hdisk fn htf, hd]
      rw [applyChange_M_some indexNull f disk t' fn other d hj hdk,
        rowsFor_insertKeys_false_self, rowsFor_delFn, if_pos rfl,
        expectedRows_json_some indexNull f _ fn d hj (by rw [hEff fn htf, hd])]
      rfl
    · rw [applyChange_nonjson false indexNull f disk t'
          (DStat.M, fn, other) (by simpa using hj),
        hpre fn htf, expectedRows_nonjson _ _ _ _ (by simpa using hj),
        expectedRows_nonjson _ _ _ _ (by simpa using hj)]
  | D =>
    have htf : touches (DStat.D, fn, other) fn := Or.inl rfl
    rw [(touches_nonren DStat.D fn other y rfl).mp hty]
    by_cases hj : endsWithJson fn
    · rw [applyChange_D false indexNull f disk t' fn other hj,
        rowsFor_delFn, if_pos rfl,
        expectedRows_json_none indexNull f _ fn (by rw [hEff fn htf, hOK.2])]
    · rw [applyChange_nonjson false indexNull f disk t'
          (DStat.D, fn, other) (by simpa using hj),
        hpre fn htf, expectedRows_nonjson _ _ _ _ (by simpa using hj),
        expectedRows_nonjson _ _ _ _ (by simpa using hj)]
  | R n =>
    obtain ⟨_hne, hfnnew, hlsome, hlnew, hhold, hhnew, h100, hjeq⟩ := hOK
    have htold : touches (DStat.R n, fn, other) fn := Or.inl rfl
    have htnew : touches (DStat.R n, fn, other) (other.headD "") :=
      Or.inr ⟨rfl, rfl⟩
    by_cases hj : endsWithJson fn
    case neg =>
      have hjf : endsWithJson fn = false := by simpa using hj
      have hjn : endsWithJson (other.headD "") = false := by rw [← hjeq, hjf]
      rw [applyChange_nonjson false indexNull f disk t'
        (DStat.R n, fn, other) (by simpa using hj), hpre y hty]
      rcases hty with h | ⟨_, h⟩
      · rw [h, expectedRows_nonjson _ _ _ _ hjf,
          expectedRows_nonjson _ _ _ _ hjf]
      · rw [h, expectedRows_nonjson _ _ _ _ hjn,
          expectedRows_nonjson _ _ _ _ hjn]
    case pos =>
    have hjn : endsWithJson (other.headD "") = true := by rw [← hjeq]; exact hj
    by_cases hn : n = 100
    · subst hn
      rw [applyChange_R100 false indexNull f disk t' fn other hj]
      rcases Option.isSome_iff_exists.mp hlsome with ⟨dold, hdold⟩
      rcases hty with h | ⟨_, h⟩
      · rw [h, rowsFor_renameFn_old t' fn (other.headD "") hfnnew,
          expectedRows_json_none indexNull f _ fn
            (by rw [hEff fn htold, hhold])]
      · rw [h, rowsFor_renameFn_new t' fn (other.headD "")
            (by rw [hpre (other.headD "") htnew]
                exact expectedRows_json_none indexNull f lastT _ hlnew),
          hpre fn htold,
          expectedRows_json_some indexNull f lastT fn dold hj hdold,
          expectedRows_json_some indexNull f _ (other.headD "") dold hjn
            (by rw [hEff _ htnew, h100 rfl, hdold])]
    · rcases Option.isSome_iff_exists.mp hhnew with ⟨dnew, hdnew⟩
      have hdk : disk (other.headD "") = some dnew := by
        rw [hdisk _ htnew, hdnew]
      rw [applyChange_Rn_some indexNull f disk t' n fn other dnew hn hj hdk]
      rcases hty with h | ⟨_, h⟩
      · rw [h, rowsFor_insertKeys_false_other _ _ _ _ hfnnew,
          rowsFor_delFn, if_pos rfl,
          expectedRows_json_none indexNull f _ fn
            (by rw [hEff fn htold, hhold])]
      · rw [h, rowsFor_insertKeys_false_self, rowsFor_delFn,
          if_neg (fun he => hfnnew he.symm), hpre (other.headD "") htnew,
          expectedRows_json_none indexNull f lastT _ hlnew,
          expectedRows_json_some indexNull f _ (other.headD "") dnew hjn
            (by rw [hEff _ htnew, hdnew])]
        rfl

/-- One `also_fns` hint, processed against the working tree, rewrites
exactly that path's rows to the rows of its on-disk content (or deletes
them when the file is gone). -/
theorem alsoChange_step (indexNull : Bool) {Doc : Type} (f : Doc → ProjVal)
    (lastT headT disk : String → Option Doc) (alsoFns : List String)
    (x : String) (hx : x ∈ alsoFns) :
    ∀ t', (∀ y, touches (if (disk x).isSome then DStat.M else DStat.D, x, []) y →
        rowsFor t' y = expectedRows indexNull f lastT y) →
    ∀ y, rowsFor (applyChange false indexNull f disk t'
        (if (disk x).isSome then DStat.M else DStat.D, x, [])) y
      = if touches (if (disk x).isSome then DStat.M else DStat.D, x, []) y then
          expectedRows indexNull f (effTree disk headT alsoFns) y
        else rowsFor t' y := by
  intro t' hpre y
  have hren : ((if (disk x).isSome then DStat.M else DStat.D) : DStat).isRen
      = false := by
    split <;> rfl
  have hEffx : effTree disk headT alsoFns x = disk x := by
    unfold effTree
    rw [if_pos hx]
  by_cases hty : touches (if (disk x).isSome then DStat.M else DStat.D, x, []) y
  case neg =>
    rw [if_neg hty]
    exact applyChange_frame indexNull f disk t' _ y hty
  case pos =>
  rw [if_pos hty]
  have hyx : y = x := (touches_nonren _ x [] y hren).mp hty
  subst hyx
  by_cases hj : endsWithJson y
  · cases hd : disk y with
    | none =>
      simp only [Option.isSome_none, Bool.false_eq_true, if_false]
      rw [applyChange_D false indexNull f disk t' y [] hj,
        rowsFor_delFn, if_pos rfl,
        expectedRows_json_none indexNull f _ y (by rw [hEffx, hd])]
    | some d =>
      simp only [Option.isSome_some, if_true]
      rw [applyChange_alsoM false indexNull f disk t' y d hj hd]
      rw [if_neg (by simp)]
      rw [rowsFor_insertKeys_false_self, rowsFor_delFn, if_pos rfl,
        expectedRows_json_some indexNull f _ y d hj (by rw [hEffx, hd])]
      rfl
  · rw [applyChange_nonjson false indexNull f disk t' _ (by simpa using hj),
      hpre y hty, expectedRows_nonjson _ _ _ _ (by simpa using hj),
      expectedRows_nonjson _ _ _ _ (by simpa using hj)]

/-- **C4** (amended, non-unique).  For a non-unique index, after a
successful `update` run over a well-formed diff between the last-indexed
tree and HEAD plus pairwise-distinct pending hints disjoint from the diff,
the table's rows for every path equal the projection rows of the effective
tree — HEAD overridden by the working tree on the hinted paths — provided
the table was consistent with the last-indexed tree and the working tree
agrees with HEAD outside the hinted paths. -/
theorem C4_catchup_amended (indexNull : Bool) {Doc : Type} (f : Doc → ProjVal)
    (lastT headT disk : String → Option Doc) (tbl : Tbl)
    (diff : List Change) (alsoFns : List String)
    (Hcons : ∀ x, rowsFor tbl x = expectedRows indexNull f lastT x)
    (Hvalid : ValidDiff lastT headT diff)
    (Hdisk : ∀ x, ¬ x ∈ alsoFns → disk x = headT x)
    (Hdisj : ∀ x ∈ alsoFns, ∀ c ∈ diff, ¬ touches c x)
    (Hnodup : alsoFns.Nodup) :
    ∀ x, rowsFor (updateRows false indexNull f disk tbl diff alsoFns) x
      = expectedRows indexNull f (effTree disk headT alsoFns) x := by
  obtain ⟨hOKs, hpairD, hcomp⟩ := Hvalid
  have htouch_also : ∀ (x z : String),
      touches (if (disk x).isSome then DStat.M else DStat.D, x, []) z ↔
        z = x := by
    intro x z
    refine touches_nonren _ x [] z ?_
    split <;> rfl
  have hpairA : List.Pairwise touchDisjoint (alsoChanges disk alsoFns) := by
    unfold alsoChanges
    rw [List.pairwise_map]
    refine List.Pairwise.imp ?_ Hnodup
    intro a b hab y hy
    rcases hy with ⟨h1, h2⟩
    rw [htouch_also a y] at h1
    rw [htouch_also b y] at h2
    exact hab (h1 ▸ h2)
  have hcross : ∀ c ∈ diff, ∀ c' ∈ alsoChanges disk alsoFns,
      touchDisjoint c c' := by
    intro c hc c' hc'
    unfold alsoChanges at hc'
    rcases List.mem_map.mp hc' with ⟨x, hx, hgx⟩
    intro y hy
    rcases hy with ⟨h1, h2⟩
    rw [← hgx, htouch_also x y] at h2
    exact Hdisj x hx c hc (h2 ▸ h1)
  have hpairAll : List.Pairwise touchDisjoint
      (diff ++ alsoChanges disk alsoFns) :=
    List.pairwise_append.mpr ⟨hpairD, hpairA, hcross⟩
  have hstep : ∀ c ∈ diff ++ alsoChanges disk alsoFns, ∀ t',
      (∀ y, touches c y → rowsFor t' y = expectedRows indexNull f lastT y) →
      ∀ y, rowsFor (applyChange false indexNull f disk t' c) y
        = if touches c y then
            expectedRows indexNull f (effTree disk headT alsoFns) y
          else rowsFor t' y := by
    intro c hc
    rcases List.mem_append.mp hc with hc | hc
    · refine diffChange_step indexNull f lastT headT disk alsoFns c
        (hOKs c hc) ?_ ?_
      · intro z hz
        exact Hdisk z (fun hz' => Hdisj z hz' c hc hz)
      · intro z hz hz'
        exact Hdisj z hz' c hc hz
    · unfold alsoChanges at hc
      rcases List.mem_map.mp hc with ⟨x, hx, hgx⟩
      rw [← hgx]
      exact alsoChange_step indexNull f lastT headT disk alsoFns x hx
  have hUn : ∀ y, (∀ c ∈ diff ++ alsoChanges disk alsoFns, ¬ touches c y) →
      rowsFor tbl y = expectedRows indexNull f (effTree disk headT alsoFns) y := by
    intro y hy
    have hyA : ¬ y ∈ alsoFns := by
      intro hmem
      refine hy (if (disk y).isSome then DStat.M else DStat.D, y, [])
        (List.mem_append_right _ ?_) ((htouch_also y y).mpr rfl)
      unfold alsoChanges
      exact List.mem_map_of_mem _ hmem
    have hlh : lastT y = headT y :=
      hcomp y (fun c hc => hy c (List.mem_append_left _ hc))
    rw [Hcons y]
    refine expectedRows_congr indexNull f lastT _ y ?_
    unfold effTree
    rw [if_neg hyA, hlh]
  exact foldl_changes_spec indexNull f disk
    (fun y => expectedRows indexNull f lastT y)
    (fun y => expectedRows indexNull f (effTree disk headT alsoFns) y)
    (diff ++ alsoChanges disk alsoFns) tbl hpairAll hstep hUn
    (fun y _ => Hcons y)

/-- **C4** (counterexample).  On a unique index, a modified file whose new
projection is null leaves its stale row behind: the update neither deletes
(unique `M` skips the delete) nor replaces (null emits no key, the index
not being `index_null`), so after the run the table still holds
`("a.json", "k")` while the HEAD tree demands no rows — the spec's own
open question. -/
theorem C4_counterexample :
    rowsFor [("a.json", "k")] "a.json"
      = expectedRows false c4Proj c4Last "a.json" ∧
    updateRows true false c4Proj c4Head [("a.json", "k")]
      [(DStat.M, "a.json", [])] [] = [("a.json", "k")] ∧
    rowsFor (updateRows true false c4Proj c4Head [("a.json", "k")]
      [(DStat.M, "a.json", [])] []) "a.json" = ["k"] ∧
    expectedRows false c4Proj (effTree c4Head c4Head []) "a.json" = [] :=
  ⟨rfl, rfl, rfl, rfl⟩

/-- **C4** (witness): a single `A` line over an empty last-indexed tree
brings the non-unique table to exactly the HEAD rows. -/
theorem C4_catchup_amended_witness :
    (∀ x, rowsFor ([] : Tbl) x
        = expectedRows false c4Proj (fun _ => none) x) ∧
    (∀ x, rowsFor (updateRows false false c4Proj c4wHead []
        [(DStat.A, "a.json", [])] []) x
      = expectedRows false c4Proj (effTree c4wHead c4wHead []) x) ∧
    rowsFor (updateRows false false c4Proj c4wHead []
        [(DStat.A, "a.json", [])] []) "a.json" = ["k"] := by
  have hcons : ∀ x, rowsFor ([] : Tbl) x
      = expectedRows false c4Proj (fun _ => none) x :=
    fun x => (expectedRows_json_none false c4Proj (fun _ => none) x rfl).symm
  have hvalid : ValidDiff (fun _ => none) c4wHead [(DStat.A, "a.json", [])] := by
    refine ⟨?_, List.pairwise_singleton _ _, ?_⟩
    · intro c hc
      rw [List.mem_singleton] at hc
      subst hc
      exact ⟨rfl, by decide⟩
    · intro y hy
      have := hy (DStat.A, "a.json", []) (List.mem_singleton_self _)
      have hne : ¬ y = "a.json" := fun h => this (Or.inl h)
      unfold c4wHead
      rw [if_neg hne]
  have h := C4_catchup_amended false c4Proj (fun _ => none) c4wHead c4wHead []
    [(DStat.A, "a.json", [])] [] hcons hvalid (fun _ _ => rfl)
    (fun x hx => absurd hx (List.not_mem_nil x)) List.nodup_nil
  exact ⟨hcons, h, by rw [h "a.json"]; rfl⟩

/-- **C1** (amended).  A commit scope whose stores all create files that
did not exist before the scope (neither on disk nor at HEAD), each path
stored at most once in the scope, with nothing staged at entry, the index
caught up, and — for a unique index — no stored document emitting a key
already present in the pre-scope table, is fully rolled back by the abort
path: working tree, staging, index table and HEAD all return to their
pre-scope state. -/
theorem C1_abort_restores_amended (unique indexNull : Bool) {Doc : Type}
    [DecidableEq Doc] (f : Doc → ProjVal) (st0 : ScState Doc)
    (calls : List (List (String × Doc)))
    (Hstaged : ∀ x, st0.gitIndex x = none)
    (Hpend : st0.pending = [])
    (Hnodup : ((calls.flatten).map Prod.fst).Nodup)
    (Hw : ∀ w ∈ calls.flatten, st0.disk w.1 = none ∧ st0.head w.1 = none ∧
      endsWithJson w.1 = true ∧ rowsFor st0.tbl w.1 = [] ∧
      (unique = true →
        ∀ k ∈ emittedKeys indexNull (f w.2), ∀ r ∈ st0.tbl, ¬ r.2 = k)) :
    (∀ x, (scopeAbort unique indexNull f
        (runScope unique indexNull f st0 calls)).disk x = st0.disk x) ∧
    (∀ x, (scopeAbort unique indexNull f
        (runScope unique indexNull f st0 calls)).gitIndex x
      = st0.gitIndex x) ∧
    (scopeAbort unique indexNull f
        (runScope unique indexNull f st0 calls)).tbl = st0.tbl ∧
    (scopeAbort unique indexNull f
        (runScope unique indexNull f st0 calls)).head = st0.head := by
  have hInv0 : scopeInv st0 st0 [] :=
    ⟨rfl, Hpend, fun _ _ => rfl, fun _ _ => rfl, by simp, by simp,
      [], by simp, by simp⟩
  have hInvN := runScope_inv unique indexNull f st0 calls st0 [] hInv0
    Hnodup (fun x _ => List.not_mem_nil x)
    (fun w hw => ⟨(Hw w hw).1, (Hw w hw).2.2.1, (Hw w hw).2.2.2.1,
      (Hw w hw).2.2.2.2⟩)
  rw [List.nil_append] at hInvN
  set P : List String := (calls.flatten).map Prod.fst with hPdef
  obtain ⟨hhead, hpend, hgidx, hdisk, hsome, hstageq, extra, htbl, hextra⟩ :=
    hInvN
  have hPfacts : ∀ x ∈ P,
      st0.disk x = none ∧ st0.head x = none ∧ endsWithJson x = true ∧
        rowsFor st0.tbl x = [] := by
    intro x hx
    rw [hPdef] at hx
    rcases List.mem_map.mp hx with ⟨w, hw, hwx⟩
    subst hwx
    exact ⟨(Hw w hw).1, (Hw w hw).2.1, (Hw w hw).2.2.1, (Hw w hw).2.2.2.1⟩
  by_cases hp : (runScope unique indexNull f st0 calls).pending = []
  · have hPnil : P = [] := by rw [← hpend, hp]
    have hextranil : extra = [] := by
      cases extra with
      | nil => rfl
      | cons r extra =>
        have := hextra r (List.mem_cons_self r extra)
        rw [hPnil] at this
        exact absurd this (by simp)
    unfold scopeAbort
    rw [if_pos hp]
    refine ⟨?_, ?_, ?_, hhead⟩
    · intro x
      exact hdisk x (by rw [hPnil]; simp)
    · intro x
      exact hgidx x (by rw [hPnil]; simp)
    · rw [htbl, hextranil]
      simp
  · have hAdded : ∀ x, statusAdded (runScope unique indexNull f st0 calls) x
        = decide (x ∈ P) := by
      intro x
      unfold statusAdded
      by_cases hx : x ∈ P
      · rcases Option.isSome_iff_exists.mp (hsome x hx) with ⟨d, hd⟩
        rw [hstageq x hx, hd, hhead, (hPfacts x hx).2.1]
        simp [hx]
      · rw [hgidx x hx, Hstaged x]
        simp [hx]
    unfold scopeAbort
    rw [if_neg hp]
    dsimp only
    refine ⟨?_, ?_, ?_, hhead⟩
    · intro x
      rw [hAdded x]
      by_cases hx : x ∈ P
      · rw [if_pos (by simp [hx]), (hPfacts x hx).1]
      · rw [if_neg (by simp [hx]), hdisk x hx]
    · intro x
      rw [hpend]
      by_cases hx : x ∈ P
      · rw [if_pos (by simp [hx]), Hstaged x]
      · rw [if_neg (by simp [hx]), hgidx x hx]
    · rw [htbl, hpend]
      refine updateAlso_all_deleted unique indexNull f _ st0.tbl P extra
        (fun x hx => (hPfacts x hx).2.2.1) ?_
        (fun x hx => (hPfacts x hx).2.2.2) hextra
      intro x hx
      rw [hAdded x, if_pos (by simp [hx])]

/-- **C1** (counterexample).  After the abort, the working tree still holds
the in-scope document (`k2`) — the file was modified, not staged-added, so
the abort path neither resets nor unlinks it — and the index update re-runs
over the modified file, leaving the table reflecting the in-scope write.
Neither the working tree nor the index table equals its pre-scope state. -/
theorem C1_counterexample :
    c1Post.disk "a/obj-a.json" = some "k2" ∧
    c1Pre.disk "a/obj-a.json" = some "k1" ∧
    c1Post.tbl = [("a/obj-a.json", "k2")] ∧
    c1Pre.tbl = [("a/obj-a.json", "k1")] :=
  ⟨rfl, rfl, rfl, rfl⟩

/-- **C1** (witness): a scope storing one brand-new file rolls back
completely. -/
theorem C1_abort_restores_amended_witness :
    ((∀ x, c1wPre.gitIndex x = none) ∧ c1wPre.pending = []) ∧
    (∀ x, (scopeAbort false false ProjVal.vstr
        (runScope false false ProjVal.vstr c1wPre [[("b.json", "k")]])).disk x
      = c1wPre.disk x) ∧
    (scopeAbort false false ProjVal.vstr
        (runScope false false ProjVal.vstr c1wPre [[("b.json", "k")]])).tbl
      = c1wPre.tbl := by
  have hw : ∀ w ∈ ([[("b.json", "k")]] : List (List (String × String))).flatten,
      c1wPre.disk w.1 = none ∧ c1wPre.head w.1 = none ∧
      endsWithJson w.1 = true ∧ rowsFor c1wPre.tbl w.1 = [] ∧
      (false = true → ∀ k ∈ emittedKeys false (ProjVal.vstr w.2),
        ∀ r ∈ c1wPre.tbl, ¬ r.2 = k) := by
    intro w hwm
    have : w = ("b.json", "k") := by simpa using hwm
    subst this
    exact ⟨rfl, rfl, by decide, rfl, fun h => absurd h (by decide)⟩
  have h := C1_abort_restores_amended false false ProjVal.vstr c1wPre
    [[("b.json", "k")]] (fun _ => rfl) rfl (by decide) hw
  exact ⟨⟨fun _ => rfl, rfl⟩, h.1, h.2.2.1⟩

/-- **C7** (witness): a quoted substring with a space survives as one
token, `And` upper-cases, and a dashed date is wrapped. -/
theorem C7_fts_rewriter_witness :
    ((∀ c ∈ ['b', ' ', 'c'], ¬ c = '"' ∧ ¬ c = '\\') ∧
      ftsTokens (String.mk ('"' :: (['b', ' ', 'c'] ++ ['"'])))
        = [String.mk ('"' :: (['b', ' ', 'c'] ++ ['"']))]) ∧
    (pyLower "And" ∈ cmdWords ∧ opCase "And" = pyUpper "And") ∧
    (hasDashSlash "2010-10-01" = true ∧
      quoteWrap "2010-10-01" = "\"" ++ stripQuotes "2010-10-01" ++ "\"") :=
  ⟨⟨by decide, C7_fts_rewriter.2.1 ['b', ' ', 'c'] (by decide)⟩,
    ⟨by decide, (C7_fts_rewriter.2.2.1 "And").1 (by decide)⟩,
    ⟨rfl, (C7_fts_rewriter.2.2.2.1 "2010-10-01").1 rfl⟩⟩

/-- **C5** (witness). -/
theorem C5_unique_key_invariant_witness :
    ((([] : Tbl).map Prod.snd).Nodup ∧
      (replaceRow [("f1.json", "k"), ("g.json", "j")] "f2.json" "k").filter
        (fun r => r.2 = "k") = [("f2.json", "k")]) :=
  ⟨(C5_unique_key_invariant false (fun s : String => .vstr s)).1 [] .init,
    (C5_unique_key_invariant false (fun s : String => .vstr s)).2
      [("f1.json", "k"), ("g.json", "j")] "f2.json" "k"⟩

end Shadb
